import Mathlib

/-!
Shallow embedding of the version-1 on-disk object codec of
`entities/storobj/storage_object.go` (object marshalling, the partial
decoders, the named-vector index and the bulk materializer), together with
proofs about the claims of the specification.

Conventions of the embedding:
* a byte buffer is a `List Nat`, one entry per byte;
* `float32` values travel as their IEEE-754 bit pattern in a 32-bit slot, so
  a vector is a `List Nat` of 32-bit words and bit-identity is `Nat` equality;
* machine integers are `Nat` with explicit `% 2 ^ w` where the source's fixed
  width arithmetic can overflow;
* Go maps are association lists (iteration order is the list order);
* fallible operations return `Except Err`;
* the byte cursor (`usecases/byteops`, not part of the sources under
  verification) is modelled from the spec as a consuming reader whose
  out-of-bounds reads yield a truncation error.
-/

namespace Storobj

/-- A byte buffer: one `Nat` per byte. -/
abbrev Bytes := List Nat

/-- The error taxonomy of the codec (unsupported marshaller version,
truncated buffer, malformed UUID, malformed JSON region, malformed
named-vector offsets, field too large on encode, named vector not found,
and the wrapped error of the named-vector reader inside `VectorFromBinary`). -/
inductive Err where
  | unsupportedVersion
  | truncated
  | malformedUUID
  | malformedJSON
  | malformedOffsets
  | fieldTooLarge
  | notFound
  | targetUnmarshal
  deriving DecidableEq

/-- Little-endian encoding of `n` on `k` bytes (drops bits above `2 ^ (8 * k)`,
exactly as a fixed-width store does). -/
def leBytes : Nat → Nat → Bytes
  | 0, _ => []
  | k + 1, n => n % 256 :: leBytes k (n / 256)

/-- Little-endian read of a whole byte list. -/
def readLE : Bytes → Nat
  | [] => 0
  | b :: rest => b + 256 * readLE rest

/-- Concatenation of the 4-byte little-endian encodings of a list of 32-bit
words; this is the wire form of a `[]float32`. -/
def packWords : List Nat → Bytes
  | [] => []
  | x :: xs => leBytes 4 x ++ packWords xs

/-- Reader primitive: one byte. -/
def pU8 : Bytes → Except Err (Nat × Bytes)
  | [] => .error .truncated
  | b :: rest => .ok (b, rest)

/-- Reader primitive: `n` raw bytes. -/
def pBytes (n : Nat) (s : Bytes) : Except Err (Bytes × Bytes) :=
  if n ≤ s.length then .ok (s.take n, s.drop n) else .error .truncated

/-- Reader primitive: little-endian `u16`. -/
def pU16 (s : Bytes) : Except Err (Nat × Bytes) :=
  match pBytes 2 s with
  | .ok (bs, rest) => .ok (readLE bs, rest)
  | .error e => .error e

/-- Reader primitive: little-endian `u32`. -/
def pU32 (s : Bytes) : Except Err (Nat × Bytes) :=
  match pBytes 4 s with
  | .ok (bs, rest) => .ok (readLE bs, rest)
  | .error e => .error e

/-- Reader primitive: little-endian `u64`. -/
def pU64 (s : Bytes) : Except Err (Nat × Bytes) :=
  match pBytes 8 s with
  | .ok (bs, rest) => .ok (readLE bs, rest)
  | .error e => .error e

/-- Cursor repositioning without a bounds check
(`MoveBufferPositionForward`); a later read off the end fails. -/
def pSkip (n : Nat) (s : Bytes) : Bytes := s.drop n

/-- `ReadBytesFromBufferWithUint32LengthIndicator`: a `u32` length followed
by that many bytes. -/
def pLenPrefixed32 (s : Bytes) : Except Err (Bytes × Bytes) := do
  let (n, s1) ← pU32 s
  pBytes n s1

/-- A sequence of `k` 32-bit words, as read by the decoder loops over
`ReadUint32`. -/
def pFloats : Nat → Bytes → Except Err (List Nat × Bytes)
  | 0, s => .ok ([], s)
  | k + 1, s => do
    let (x, s1) ← pU32 s
    let (xs, s2) ← pFloats k s1
    .ok (x :: xs, s2)

/-- Modelled from the spec: the JSON value classes handled by the external
JSON library for property, additional and vector-weight regions.  The
embedding covers the scalar classes (null, boolean, number, string); the
schema-registry enrichment and the nested-object re-casts of the source act
as the identity on these. -/
inductive JVal where
  | jnull
  | jbool (b : Bool)
  | jnum (n : Nat)
  | jstr (s : Bytes)
  deriving DecidableEq

/-- A JSON object: an association list from key bytes to values. -/
abbrev PropMap := List (Bytes × JVal)

/-- The four ASCII bytes of the literal `null`. -/
def nullBytes : Bytes := [110, 117, 108, 108]

/-- Modelled from the spec: the byte encoding the external JSON library gives
one value (an invertible tagged encoding standing in for JSON text). -/
def encJVal : JVal → Bytes
  | .jnull => [0]
  | .jbool b => [1, if b then 1 else 0]
  | .jnum n => 2 :: leBytes 8 n
  | .jstr s => 3 :: (leBytes 4 s.length ++ s)

/-- One `key : value` member of an encoded JSON object. -/
def encEntry (e : Bytes × JVal) : Bytes := leBytes 4 e.1.length ++ e.1 ++ encJVal e.2

/-- The members of an encoded JSON object, in map iteration order. -/
def encEntries : PropMap → Bytes
  | [] => []
  | e :: rest => encEntry e ++ encEntries rest

/-- Modelled from the spec: `json.Marshal` of a `map[string]interface{}`.
A nil map marshals to the four ASCII bytes `null`; a non-nil map to an
object whose first byte (the ASCII `{`, 123) is distinct from the `n` of
`null`. -/
def jsonMarshalMap : Option PropMap → Bytes
  | none => nullBytes
  | some m => 123 :: encEntries m

/-- Modelled from the spec: `json.Marshal` of an `interface{}` value (the
vector weights).  nil marshals to `null`; the lead byte 124 of a non-nil
value is distinct from the `n` of `null`. -/
def jsonMarshalVal : Option JVal → Bytes
  | none => nullBytes
  | some v => 124 :: encJVal v

/-- Parse one encoded JSON value. -/
def pJVal : Bytes → Except Err (JVal × Bytes)
  | 0 :: rest => .ok (.jnull, rest)
  | 1 :: b :: rest => .ok (.jbool (b == 1), rest)
  | 2 :: rest =>
    match pBytes 8 rest with
    | .ok (bs, r) => .ok (.jnum (readLE bs), r)
    | .error _ => .error .malformedJSON
  | 3 :: rest =>
    (match pU32 rest with
     | .ok (n, r) =>
       match pBytes n r with
       | .ok (bs, r2) => .ok (.jstr bs, r2)
       | .error _ => .error .malformedJSON
     | .error _ => .error .malformedJSON)
  | _ => .error .malformedJSON

/-- Parse the members of an encoded JSON object until the region is
exhausted; the fuel bounds the number of members. -/
def pEntries : Nat → Bytes → Except Err PropMap
  | _, [] => .ok []
  | 0, _ :: _ => .error .malformedJSON
  | fuel + 1, s =>
    match pU32 s with
    | .error _ => .error .malformedJSON
    | .ok (klen, s1) =>
      match pBytes klen s1 with
      | .error _ => .error .malformedJSON
      | .ok (key, s2) =>
        match pJVal s2 with
        | .error e => .error e
        | .ok (v, s3) =>
          match pEntries fuel s3 with
          | .error e => .error e
          | .ok rest => .ok ((key, v) :: rest)

/-- Modelled from the spec: `json.Unmarshal` into a `map[string]interface{}`.
The literal `null` leaves the map nil; empty or otherwise malformed input is
an error. -/
def jsonUnmarshalMap (s : Bytes) : Except Err (Option PropMap) :=
  if s = nullBytes then .ok none
  else
    match s with
    | 123 :: rest =>
      match pEntries (rest.length + 1) rest with
      | .ok m => .ok (some m)
      | .error e => .error e
    | _ => .error .malformedJSON

/-- Modelled from the spec: `json.Unmarshal` into an `interface{}` (the
vector weights). -/
def jsonUnmarshalVal (s : Bytes) : Except Err (Option JVal) :=
  if s = nullBytes then .ok none
  else
    match s with
    | 124 :: rest =>
      match pJVal rest with
      | .ok (v, r) => if r = [] then .ok (some v) else .error .malformedJSON
      | .error e => .error e
    | _ => .error .malformedJSON

/-- Modelled from the spec: the external MessagePack library's encoding of
the named-vector offsets map `{name : u32 offset}` — an invertible
per-entry encoding (u16 name length, name bytes, u32 offset), map order
preserved. -/
def msgpackMarshalOffsets : List (Bytes × Nat) → Bytes
  | [] => []
  | (name, off) :: rest => leBytes 2 name.length ++ name ++ leBytes 4 off ++ msgpackMarshalOffsets rest

/-- Parse the encoded offsets map back; the fuel bounds the entry count. -/
def pOffsets : Nat → Bytes → Except Err (List (Bytes × Nat))
  | _, [] => .ok []
  | 0, _ :: _ => .error .malformedOffsets
  | fuel + 1, s =>
    match pU16 s with
    | .error _ => .error .malformedOffsets
    | .ok (nlen, s1) =>
      match pBytes nlen s1 with
      | .error _ => .error .malformedOffsets
      | .ok (name, s2) =>
        match pU32 s2 with
        | .error _ => .error .malformedOffsets
        | .ok (off, s3) =>
          match pOffsets fuel s3 with
          | .error e => .error e
          | .ok rest => .ok ((name, off) :: rest)

/-- Modelled from the spec: `msgpack.Unmarshal` of the offsets map. -/
def msgpackUnmarshalOffsets (s : Bytes) : Except Err (List (Bytes × Nat)) :=
  pOffsets (s.length + 1) s

/-- The `models.Object` part of a stored object: identity, timestamps, class,
and the three JSON-backed regions.  A UUID is identified with its 16 bytes
(the uuid library's parse/format round trip is the external collaborator).
Timestamps are the `u64` bit patterns of the source's `int64` values. -/
structure MObj where
  id : Bytes := []
  className : Bytes := []
  creationTimeUnix : Nat := 0
  lastUpdateTimeUnix : Nat := 0
  properties : Option PropMap := none
  additionalM : Option PropMap := none
  vectorWeights : Option JVal := none
  vector : Option (List Nat) := none
  vectorsM : Option (List (Bytes × List Nat)) := none
  deriving DecidableEq

/-- The stored object (`storobj.Object`): marshaller version, doc id, the
embedded `models.Object`, the primary vector (32-bit words; `none` is a nil
slice), the cached vector length, and the named vectors (`none` is a nil
map). -/
structure StorObj where
  marshallerVersion : Nat := 0
  docID : Nat := 0
  obj : MObj := {}
  vector : Option (List Nat) := none
  vectorLen : Nat := 0
  vectors : Option (List (Bytes × List Nat)) := none
  deriving DecidableEq

/-- The field mask (`additional.Properties`) driving the partial decoders;
`moduleParams` is the module-parameter map, `vectors` the requested
named-vector names. -/
structure AddProps where
  vector : Bool := false
  noProps : Bool := false
  classification : Bool := false
  moduleParams : List (Bytes × JVal) := []
  vectors : List Bytes := []
  refMeta : Bool := false
  group : Bool := false
  deriving DecidableEq

/-- The property projection (`PropertyExtraction`); the per-name singleton
paths of the source are derivable from the names and are not duplicated
here. -/
structure PropExtract where
  propStrings : List Bytes := []
  deriving DecidableEq

/-- First-match association lookup, the model of a Go map read. -/
def findVal : PropMap → Bytes → Option JVal
  | [], _ => none
  | (k, v) :: rest, key => if k = key then some v else findVal rest key

/-- First-match lookup in a named-vector list. -/
def findVec : List (Bytes × List Nat) → Bytes → Option (List Nat)
  | [], _ => none
  | (k, v) :: rest, key => if k = key then some v else findVec rest key

/-- Go map assignment `m[k] = v`: replace the first binding of `k`, or append
a new one. -/
def insertProp : PropMap → Bytes → JVal → PropMap
  | [], k, v => [(k, v)]
  | (k0, v0) :: rest, k, v =>
    if k0 = k then (k0, v) :: rest else (k0, v0) :: insertProp rest k v

/-- The primary vector as a plain list (nil slice reads as empty). -/
def vecOf (o : StorObj) : List Nat := o.vector.getD []

/-- The named vectors as a plain list (nil map reads as empty). -/
def vecsOf (o : StorObj) : List (Bytes × List Nat) := o.vectors.getD []

/-- The encoded properties region: `json.Marshal(ko.Properties())`. -/
def schemaBytes (o : StorObj) : Bytes := jsonMarshalMap o.obj.properties

/-- The encoded additional region: `json.Marshal(ko.AdditionalProperties())`. -/
def metaBytes (o : StorObj) : Bytes := jsonMarshalMap o.obj.additionalM

/-- The encoded vector-weights region: `json.Marshal(ko.VectorWeights())`. -/
def weightsBytes (o : StorObj) : Bytes := jsonMarshalVal o.obj.vectorWeights

/-- Segment-relative offsets assigned to the named vectors in map iteration
order: each name gets the running segment size, which then advances by
`2 + 4 * len(vec)`. -/
def offsetsOf : Nat → List (Bytes × List Nat) → List (Bytes × Nat)
  | _, [] => []
  | acc, (name, v) :: rest => (name, acc) :: offsetsOf (acc + (2 + 4 * v.length)) rest

/-- Total size of the packed named-vector segment. -/
def segLenOf : List (Bytes × List Nat) → Nat
  | [] => 0
  | (_, v) :: rest => (2 + 4 * v.length) + segLenOf rest

/-- The packed named-vector segment: `(u16 length, length × u32)` records in
offset-assignment order. -/
def buildSeg : List (Bytes × List Nat) → Bytes
  | [] => []
  | (_, v) :: rest => (leBytes 2 v.length ++ packWords v) ++ buildSeg rest

/-- The encoded offsets region.  The source only marshals when the map is
non-empty; the modelled MessagePack encoding of an empty map is empty, so no
case split is needed. -/
def offsetsBytesOf (o : StorObj) : Bytes := msgpackMarshalOffsets (offsetsOf 0 (vecsOf o))

/-- The packed segment region of an object. -/
def segBytesOf (o : StorObj) : Bytes := buildSeg (vecsOf o)

def maxVectorLength : Nat := 65535
def maxClassNameLength : Nat := 65535
def maxU32 : Nat := 4294967295

/-- The version-1 frame of an object, field for field in the order of the
layout table in `MarshalBinary`'s comment: version, doc id, deprecated kind
byte (always 1), uuid, create and update time, `u16` vector length and the
vector words, `u16` class-name length and the class name, then the four
`u32`-length-prefixed regions (properties JSON, additional JSON, vector
weights JSON, named-vector offsets) and the `u32` segment length with the
packed segment. -/
def encodeBytes (o : StorObj) : Bytes :=
  [o.marshallerVersion] ++ leBytes 8 o.docID ++ [1] ++ o.obj.id
    ++ leBytes 8 o.obj.creationTimeUnix ++ leBytes 8 o.obj.lastUpdateTimeUnix
    ++ leBytes 2 (vecOf o).length ++ packWords (vecOf o)
    ++ leBytes 2 o.obj.className.length ++ o.obj.className
    ++ leBytes 4 (schemaBytes o).length ++ schemaBytes o
    ++ leBytes 4 (metaBytes o).length ++ metaBytes o
    ++ leBytes 4 (weightsBytes o).length ++ weightsBytes o
    ++ leBytes 4 (offsetsBytesOf o).length ++ offsetsBytesOf o
    ++ leBytes 4 (segLenOf (vecsOf o)) ++ segBytesOf o

/-- The exact frame length the encoder pre-computes (the source computes it
in `uint32`; well-formed objects keep it below `2 ^ 32`). -/
def encodedLen (o : StorObj) : Nat :=
  42 + 2 + 4 * (vecOf o).length + 2 + o.obj.className.length
    + 4 + (schemaBytes o).length + 4 + (metaBytes o).length
    + 4 + (weightsBytes o).length + 4 + (offsetsBytesOf o).length
    + 4 + segLenOf (vecsOf o)

/-- Modelled from the spec: `uuid.Parse(ko.ID().String())` followed by
`MarshalBinary` — with a UUID identified with its 16 bytes this succeeds
exactly on 16-byte ids. -/
def parseUUIDBytes (id : Bytes) : Except Err Bytes :=
  if id.length = 16 then .ok id else .error .malformedUUID

/-- `MarshalBinary`: validate the version, the uuid and each variable-length
region's maximum, then emit the frame in one buffer.  All size checks happen
before any output byte exists; the per-vector and cumulative segment checks
of the source are folded into the two named-vector conditions (every
overflow yields the same `FieldTooLarge` error). -/
def MarshalBinary (o : StorObj) : Except Err Bytes :=
  if o.marshallerVersion ≠ 1 then .error .unsupportedVersion
  else
    match parseUUIDBytes o.obj.id with
    | .error e => .error e
    | .ok _ =>
      if maxVectorLength < (vecOf o).length then .error .fieldTooLarge
      else if maxClassNameLength < o.obj.className.length then .error .fieldTooLarge
      else if maxU32 < (schemaBytes o).length then .error .fieldTooLarge
      else if maxU32 < (metaBytes o).length then .error .fieldTooLarge
      else if maxU32 < (weightsBytes o).length then .error .fieldTooLarge
      else if (vecsOf o).any (fun e => maxVectorLength < e.2.length) then .error .fieldTooLarge
      else if maxU32 < segLenOf (vecsOf o) then .error .fieldTooLarge
      else if maxU32 < (offsetsBytesOf o).length then .error .fieldTooLarge
      else .ok (encodeBytes o)

/-- `FromObject`: build a stored object from a `models.Object` plus vectors.
Null-valued property keys are deleted first (leaving a property out and
setting it nil must be identical); a non-map properties value is left
unchanged.  The marshaller version becomes 1 and the vector length is
cached. -/
def FromObject (o : StorObj) : StorObj :=
  { marshallerVersion := 1
    docID := 0
    vector := o.vector
    vectorLen := (vecOf o).length
    vectors := o.vectors
    obj := { o.obj with
      properties := o.obj.properties.map (fun m => m.filter (fun e => !(e.2 == JVal.jnull))) } }

/-- Read one `(u16 length, length × u32)` record per offsets entry, seeking
to `segment_start + offset` each time. -/
def readTargetVecs : List (Bytes × Nat) → Bytes → Except Err (List (Bytes × List Nat))
  | [], _ => .ok []
  | (name, off) :: rest, seg => do
    let (len, r) ← pU16 (pSkip off seg)
    let (v, _) ← pFloats len r
    let vs ← readTargetVecs rest seg
    .ok ((name, v) :: vs)

/-- `unmarshalTargetVectors` on the remaining buffer: absent when the cursor
is already at the end; otherwise read the `u32`-prefixed offsets region and
the `u32` segment length, and when the offsets region is non-empty unpack it
and read each named record at `segment_start + offset`, finally leaving the
cursor at `segment_start + segment_length`.  Empty offsets leave the cursor
right after the segment-length word, as in the source. -/
def unmarshalTargetVectors (s : Bytes) : Except Err (Option (List (Bytes × List Nat)) × Bytes) :=
  if s = [] then .ok (none, s)
  else do
    let (offsetsB, s1) ← pLenPrefixed32 s
    let (segLen, seg) ← pU32 s1
    if offsetsB = [] then .ok (none, seg)
    else
      match msgpackUnmarshalOffsets offsetsB with
      | .error e => .error e
      | .ok tvOffsets => do
        let vecs ← readTargetVecs tvOffsets seg
        .ok (some vecs, pSkip segLen seg)

/-- Modelled from the spec: `enrichSchemaTypes` (the schema-registry
enrichment, outside the sources under verification) coerces property values
to their schema-declared types; on the scalar value classes of this
embedding it is the identity and cannot fail. -/
def enrichSchemaTypes (m : Option PropMap) : Option PropMap := m

/-- `parseObject`: JSON-decode the three regions and assemble the
`models.Object`.  Properties go through the projection path when an
extraction list is present, the region is non-empty and long enough —
parsing the region and keeping the requested keys (the jsonparser projection
on scalar values); otherwise they are unmarshalled whole.  An additional
region is unmarshalled only when non-empty; the classification and group
re-casts of the source act on object-typed values and are the identity on
the scalar values of this embedding.  The vector weights are always
unmarshalled. -/
def parseObject (id : Bytes) (create update : Nat) (className : Bytes)
    (propsB metaB weightsB : Bytes) (pe : Option PropExtract) (propLength : Nat) :
    Except Err MObj := do
  let props ←
    if pe = none ∨ propLength = 0 then jsonUnmarshalMap propsB
    else if propLength ≤ propsB.length then
      match jsonUnmarshalMap (propsB.take propLength) with
      | .ok (some m) =>
        .ok (some (m.filter (fun e => (pe.getD {}).propStrings.contains e.1)))
      | .ok none => .ok (some [])
      | .error e => .error e
    else .ok none
  let props := enrichSchemaTypes props
  let addl ← if 0 < metaB.length then jsonUnmarshalMap metaB else .ok none
  let w ← jsonUnmarshalVal weightsB
  .ok { id := id, className := className,
        creationTimeUnix := create, lastUpdateTimeUnix := update,
        properties := props, additionalM := addl, vectorWeights := w }

/-- `UnmarshalBinary`: the full decoder — header, primary vector, class
name, the three JSON regions, the named vectors, then `parseObject`.  The
source indexes `data[0]` unchecked; per the spec an out-of-bounds access is
a truncation error. -/
def UnmarshalBinary (data : Bytes) : Except Err StorObj :=
  match data with
  | [] => .error .truncated
  | version :: s =>
    if version ≠ 1 then .error .unsupportedVersion
    else do
      let (docID, s) ← pU64 s
      let s := pSkip 1 s
      let (uuidB, s) ← pBytes 16 s
      let (create, s) ← pU64 s
      let (update, s) ← pU64 s
      let (vecLen, s) ← pU16 s
      let (vec, s) ← pFloats vecLen s
      let (classLen, s) ← pU16 s
      let (classB, s) ← pBytes classLen s
      let (schemaLen, s) ← pU32 s
      let (schemaB, s) ← pBytes schemaLen s
      let (metaLen, s) ← pU32 s
      let (metaB, s) ← pBytes metaLen s
      let (weightsLen, s) ← pU32 s
      let (weightsB, s) ← pBytes weightsLen s
      let (vectors, _) ← unmarshalTargetVectors s
      let fields ← parseObject uuidB create update classB schemaB metaB weightsB none 0
      .ok { marshallerVersion := 1, docID := docID, obj := fields,
            vector := some vec, vectorLen := vecLen, vectors := vectors }

/-- `FromBinary`: decode a whole frame into a fresh object. -/
def FromBinary (data : Bytes) : Except Err StorObj := UnmarshalBinary data

/-- `FromBinaryUUIDOnly`: the id-and-class partial decoder.  The source
skips the vector body with `MoveBufferPositionForward(uint64(vecLen * 4))`,
multiplying inside the `uint16`, so the skip distance is `vecLen * 4`
reduced modulo `2 ^ 16`. -/
def FromBinaryUUIDOnly (data : Bytes) : Except Err StorObj := do
  let (version, s) ← pU8 data
  if version ≠ 1 then .error .unsupportedVersion
  else do
    let (docID, s) ← pU64 s
    let s := pSkip 1 s
    let (uuidB, s) ← pBytes 16 s
    let s := pSkip 16 s
    let (vecLen, s) ← pU16 s
    let s := pSkip (vecLen * 4 % 65536) s
    let (classLen, s) ← pU16 s
    let (classB, _) ← pBytes classLen s
    .ok { marshallerVersion := 1, docID := docID,
          obj := { id := uuidB, className := classB } }

/-- `FromBinaryOptional`: the selective decoder.  Reads the fixed header,
reads or skips each region per the mask, records the vector length even when
the body is skipped, and only calls `parseObject` when the should-parse
predicate holds: non-empty read properties, or non-empty read additional, or
a non-empty weights region that is not exactly the four ASCII bytes `null`.
On the fast path only identity, timestamps and class are populated (the
parse path rebuilds `ko.Object` from scratch, dropping the vector and named
vectors previously stored on it, exactly as the source's assignment does). -/
def FromBinaryOptional (data : Bytes) (addProp : AddProps) (pe : Option PropExtract) :
    Except Err StorObj := do
  let (version, s) ← pU8 data
  if version ≠ 1 then .error .unsupportedVersion
  else do
    let (docID, s) ← pU64 s
    let s := pSkip 1 s
    let (uuidB, s) ← pBytes 16 s
    let (create, s) ← pU64 s
    let (update, s) ← pU64 s
    let (vecLen, s) ← pU16 s
    let vecStep : Except Err (Option (List Nat) × Bytes) :=
      if addProp.vector then
        match pFloats vecLen s with
        | .ok (v, s1) => .ok (some v, s1)
        | .error e => .error e
      else .ok (none, pSkip (vecLen * 4) s)
    let (vecOpt, s) ← vecStep
    let (classLen, s) ← pU16 s
    let (classB, s) ← pBytes classLen s
    let (propLength, s) ← pU32 s
    let propsStep : Except Err (Bytes × Bytes) :=
      if addProp.noProps then .ok ([], pSkip propLength s)
      else pBytes propLength s
    let (props, s) ← propsStep
    let (metaLen, s) ← pU32 s
    let metaStep : Except Err (Bytes × Bytes) :=
      if addProp.classification || !addProp.moduleParams.isEmpty then pBytes metaLen s
      else .ok ([], pSkip metaLen s)
    let (meta, s) ← metaStep
    let (weightsLen, s) ← pU32 s
    let (weights, s) ← pBytes weightsLen s
    let vecsStep : Except Err (Option (List (Bytes × List Nat)) × Bytes) :=
      if !addProp.vectors.isEmpty then unmarshalTargetVectors s
      else .ok (none, s)
    let (vectors, _) ← vecsStep
    if 0 < props.length ∨ 0 < meta.length ∨
        (0 < weightsLen ∧ ¬(weightsLen = 4 ∧ weights = nullBytes)) then do
      let fields ← parseObject uuidB create update classB props meta weights pe propLength
      .ok { marshallerVersion := 1, docID := docID, obj := fields,
            vector := vecOpt, vectorLen := vecLen, vectors := vectors }
    else
      .ok { marshallerVersion := 1, docID := docID,
            obj := { id := uuidB, className := classB,
                     creationTimeUnix := create, lastUpdateTimeUnix := update,
                     vector := vecOpt, vectorsM := vectors },
            vector := vecOpt, vectorLen := vecLen, vectors := vectors }

/-- `VectorFromBinary`: empty input yields a nil vector and no error; a
non-empty input has its version checked.  A named target walks the frame to
the named-vector section and looks the name up (absence is the not-found
error).  An empty target reads the `u16` vector length directly at offset
42; the source computes the loop bound as `44 + int(vecLen*4)` with the
multiplication inside the `uint16`, so it copies `vecLen * 4 % 2 ^ 16 / 4`
words into an output of length `vecLen` (taken from the scratch buffer when
its capacity suffices, freshly zeroed otherwise). -/
def VectorFromBinary (inB : Bytes) (buffer : List Nat) (targetVector : Bytes) :
    Except Err (Option (List Nat)) :=
  match inB with
  | [] => .ok none
  | version :: _ =>
    if version ≠ 1 then .error .unsupportedVersion
    else if targetVector ≠ [] then do
      let s := pSkip 42 inB
      let (vecLen, s) ← pU16 s
      let s := pSkip (vecLen * 4) s
      let (classLen, s) ← pU16 s
      let s := pSkip classLen s
      let (schemaLen, s) ← pU32 s
      let s := pSkip schemaLen s
      let (metaLen, s) ← pU32 s
      let s := pSkip metaLen s
      let (weightsLen, s) ← pU32 s
      let s := pSkip weightsLen s
      match unmarshalTargetVectors s with
      | .error _ => .error .targetUnmarshal
      | .ok (tv, _) =>
        match findVec (tv.getD []) targetVector with
        | some v => .ok (some v)
        | none => .error .notFound
    else
      if inB.length < 44 then .error .truncated
      else
        let vecLen := readLE ((inB.drop 42).take 2)
        let copied := vecLen * 4 % 65536 / 4
        if inB.length < 44 + vecLen * 4 % 65536 then .error .truncated
        else
          let out0 := if vecLen ≤ buffer.length then buffer.take vecLen
            else List.replicate vecLen 0
          .ok (some ((List.range copied).map (fun i => readLE ((inB.drop (44 + 4 * i)).take 4))
            ++ out0.drop copied))

/-- Modelled from the spec: the key-value bucket collaborator — get by the
doc-id secondary index returns the stored frame or null for a missing key
(the caller-owned scratch buffer only affects allocation, not values). -/
abbrev Bucket := Nat → Option Bytes

/-- The body of `objectsByDocIDSequential`'s loop: fetch each id, skip null
results, decode the rest; the output keeps input order and is compacted
(`out[:i]`).  A decode failure aborts with its error. -/
def seqLoop (bucket : Bucket) (addProp : AddProps) (pe : Option PropExtract) :
    List Nat → Except Err (List StorObj)
  | [] => .ok []
  | id :: rest =>
    match bucket id with
    | none => seqLoop bucket addProp pe rest
    | some res => do
      let o ← FromBinaryOptional res addProp pe
      let out ← seqLoop bucket addProp pe rest
      .ok (o :: out)

/-- `objectsByDocIDSequential`: build the property extraction from the
requested names (nil stays nil), then run the fetch-and-decode loop. -/
def objectsByDocIDSequential (bucket : Bucket) (ids : List Nat)
    (addProp : AddProps) (properties : Option (List Bytes)) : Except Err (List StorObj) :=
  seqLoop bucket addProp (properties.map (fun ps => { propStrings := ps })) ids

/-- The chunk loop of `objectsByDocIDParallel`.  Chunk `c` covers
`ids[c*chunkSize : min((c+1)*chunkSize, len)]`; the loop stops at the first
chunk whose start passes the end.  Each task's compacted result is copied to
the start of its chunk's slots; slots past it keep their initial nil.  The
tasks write disjoint ranges, so the parallel execution is modelled by
running them in chunk order; the error-group barrier surfaces the first
failure. -/
def parallelChunks (bucket : Bucket) (addProp : AddProps) (properties : Option (List Bytes))
    (ids : List Nat) (chunkSize : Nat) : Nat → Nat → Except Err (List (Option StorObj))
  | 0, _ => .ok []
  | fuel + 1, c =>
    let start := c * chunkSize
    if ids.length ≤ start then .ok []
    else do
      let stop := min (start + chunkSize) ids.length
      let objs ← objectsByDocIDSequential bucket ((ids.drop start).take (stop - start))
        addProp properties
      let rest ← parallelChunks bucket addProp properties ids chunkSize fuel (c + 1)
      .ok ((objs.map some ++ List.replicate ((stop - start) - objs.length) none) ++ rest)

/-- `objectsByDocIDParallel`: `parallel` tasks (the source uses
`2 * GOMAXPROCS`, an environment datum passed in here), chunk size
`max(ceil(len/parallel), 1)`, output returned as filled by the tasks —
without any compaction of the nil slots missing ids leave behind. -/
def objectsByDocIDParallel (parallel : Nat) (bucket : Bucket) (ids : List Nat)
    (addProp : AddProps) (properties : Option (List Bytes)) :
    Except Err (List (Option StorObj)) :=
  let chunkSize := max ((ids.length + parallel - 1) / parallel) 1
  parallelChunks bucket addProp properties ids chunkSize parallel 0

/-- `ObjectsByDocID`: a single id runs sequentially (whose non-nil compacted
result is injected into the option-typed output), anything else goes through
the parallel path. -/
def ObjectsByDocID (parallel : Nat) (bucket : Bucket) (ids : List Nat)
    (addProp : AddProps) (properties : Option (List Bytes)) :
    Except Err (List (Option StorObj)) :=
  if ids.length = 1 then
    match objectsByDocIDSequential bucket ids addProp properties with
    | .ok out => .ok (out.map some)
    | .error e => .error e
  else objectsByDocIDParallel parallel bucket ids addProp properties

/-- The key bytes of `"id"`. -/
def idKey : Bytes := [105, 100]

/-- The key bytes of `"explainScore"`. -/
def explainScoreKey : Bytes := [101, 120, 112, 108, 97, 105, 110, 83, 99, 111, 114, 101]

/-- The key bytes of `"interpretation"`. -/
def interpretationKey : Bytes := [105, 110, 116, 101, 114, 112, 114, 101, 116, 97, 116, 105, 111, 110]

/-- The key bytes of `"classification"`. -/
def classificationKey : Bytes := [99, 108, 97, 115, 115, 105, 102, 105, 99, 97, 116, 105, 111, 110]

/-- The key bytes of `"group"`. -/
def groupKey : Bytes := [103, 114, 111, 117, 112]

/-- `ExplainScore`: the string at `"explainScore"` in the stored additional
map, empty when the map is nil or the key absent.  (A non-string value would
make the source's type assertion panic; such values are outside the modelled
domain.) -/
def explainScoreOf (o : StorObj) : Bytes :=
  match o.obj.additionalM with
  | none => []
  | some m =>
    match findVal m explainScoreKey with
    | some (.jstr s) => s
    | _ => []

/-- `PropertiesWithAdditional`: with `RefMeta` unset the source blanks the
classification of every multiple-reference property value in place; on the
scalar property values of this embedding there are no reference values and
the map is returned unchanged. -/
def PropertiesWithAdditional (o : StorObj) (_addl : AddProps) : Option PropMap :=
  o.obj.properties

/-- The search-result envelope (`search.Result`), restricted to the fields
the projection fills. -/
structure SearchRes where
  id : Bytes := []
  docID : Nat := 0
  className : Bytes := []
  schema : Option PropMap := none
  vector : Option (List Nat) := none
  vectorsR : Option (List (Bytes × List Nat)) := none
  dims : Nat := 0
  created : Nat := 0
  updated : Nat := 0
  additionalProps : PropMap := []
  explainScore : Bytes := []
  tenant : Bytes := []
  deriving DecidableEq

/-- `asVectors`: a non-empty named-vector map is copied, anything else maps
to nil. -/
def asVectors (vs : Option (List (Bytes × List Nat))) : Option (List (Bytes × List Nat)) :=
  match vs with
  | some l => if l.isEmpty then none else some l
  | none => none

/-- The additional-properties map the envelope carries, assembled from the
module flags: interpretation (when the module parameter is the boolean
true), classification and group copy the same-named keys of the stored
additional map through (a missing key copies a null, as a Go map read does);
a non-empty explain score is surfaced last. -/
def searchAdditional (o : StorObj) (addl : AddProps) : PropMap :=
  let base : PropMap :=
    match o.obj.additionalM with
    | none => []
    | some m =>
      (if (findVal addl.moduleParams interpretationKey) = some (.jbool true) then
        [(interpretationKey, (findVal m interpretationKey).getD .jnull)] else [])
      ++ (if addl.classification then
        [(classificationKey, (findVal m classificationKey).getD .jnull)] else [])
      ++ (if addl.group then
        [(groupKey, (findVal m groupKey).getD .jnull)] else [])
  if explainScoreOf o ≠ [] then base ++ [(explainScoreKey, .jstr (explainScoreOf o))]
  else base

/-- `SearchResult`: project the object to the envelope.  The projection is
not a pure read — it takes the properties map (an empty map when nil or not
a map), assigns the object's UUID under the key `id`, and stores that map
back on the receiver before building the envelope; the pair returned is
(mutated receiver, envelope). -/
def SearchResult (o : StorObj) (addl : AddProps) (tenant : Bytes) : StorObj × SearchRes :=
  let propertiesMap := (PropertiesWithAdditional o addl).getD []
  let propertiesMap := insertProp propertiesMap idKey (.jstr o.obj.id)
  let o2 := { o with obj := { o.obj with properties := some propertiesMap } }
  (o2,
    { id := o2.obj.id, docID := o2.docID, className := o2.obj.className,
      schema := o2.obj.properties, vector := o2.vector,
      vectorsR := asVectors o2.vectors, dims := o2.vectorLen,
      created := o2.obj.creationTimeUnix, updated := o2.obj.lastUpdateTimeUnix,
      additionalProps := searchAdditional o2 addl,
      explainScore := explainScoreOf o2, tenant := tenant })

/-- Value bounds under which the modelled JSON encoding is invertible. -/
def wfJVal : JVal → Bool
  | .jnum n => n < 2 ^ 64
  | .jstr s => s.length < 2 ^ 32
  | _ => true

/-- Map bounds: every key fits a `u32` length and every value is bounded. -/
def wfMap (m : PropMap) : Bool :=
  m.all (fun e => decide (e.1.length < 2 ^ 32) && wfJVal e.2)

def wfOptMap : Option PropMap → Bool
  | none => true
  | some m => wfMap m

def wfOptVal : Option JVal → Bool
  | none => true
  | some v => wfJVal v

/-- Named-vector bounds: names fit a `u16` length, vectors fit the `u16`
length field, words fit 32 bits. -/
def wfVecs (vs : List (Bytes × List Nat)) : Bool :=
  vs.all (fun e => decide (e.1.length < 2 ^ 16) && decide (e.2.length ≤ 65535)
    && e.2.all (fun x => decide (x < 2 ^ 32)))

/-- A well-formed stored object: version 1, a 16-byte uuid, fixed-width
fields in range, regions within their maxima, and the frame below the
`uint32` total the encoder computes. -/
def WFobj (o : StorObj) : Prop :=
  o.marshallerVersion = 1 ∧ o.obj.id.length = 16 ∧
  o.docID < 2 ^ 64 ∧
  o.obj.creationTimeUnix < 2 ^ 64 ∧ o.obj.lastUpdateTimeUnix < 2 ^ 64 ∧
  (vecOf o).length ≤ 65535 ∧ (∀ x ∈ vecOf o, x < 2 ^ 32) ∧
  o.obj.className.length ≤ 65535 ∧
  wfOptMap o.obj.properties = true ∧ wfOptMap o.obj.additionalM = true ∧
  wfOptVal o.obj.vectorWeights = true ∧ wfVecs (vecsOf o) = true ∧
  (schemaBytes o).length ≤ maxU32 ∧ (metaBytes o).length ≤ maxU32 ∧
  (weightsBytes o).length ≤ maxU32 ∧ (offsetsBytesOf o).length ≤ maxU32 ∧
  segLenOf (vecsOf o) ≤ maxU32 ∧ encodedLen o < 2 ^ 32

instance instDecidableWFobj (o : StorObj) : Decidable (WFobj o) := by
  unfold WFobj
  infer_instance

/-- The object the full decoder rebuilds from `encodeBytes o`: the same
logical object, with the vector length cached, the vector materialized (a
fresh slice, so `some` even when empty), an empty named-vector map decoded
as absent, and the vector/vectors duplicates inside `models.Object` unset
(the full decoder never sets them). -/
def restored (o : StorObj) : StorObj :=
  { marshallerVersion := 1, docID := o.docID,
    vector := some (vecOf o), vectorLen := (vecOf o).length,
    vectors := if (vecsOf o).isEmpty then none else some (vecsOf o),
    obj := { id := o.obj.id, className := o.obj.className,
             creationTimeUnix := o.obj.creationTimeUnix,
             lastUpdateTimeUnix := o.obj.lastUpdateTimeUnix,
             properties := o.obj.properties, additionalM := o.obj.additionalM,
             vectorWeights := o.obj.vectorWeights,
             vector := none, vectorsM := none } }

/-- An arbitrary version-1 frame assembled from raw region bytes (regions
need not be valid JSON), used to state properties of the partial decoders
over all frames, not only encoder outputs. `tail` is whatever follows the
weights region. -/
def mkFrame (docID : Nat) (uuidB : Bytes) (create update : Nat) (vecWords : List Nat)
    (classB propsR metaR weightsR tail : Bytes) : Bytes :=
  [1] ++ leBytes 8 docID ++ [1] ++ uuidB ++ leBytes 8 create ++ leBytes 8 update
    ++ leBytes 2 vecWords.length ++ packWords vecWords
    ++ leBytes 2 classB.length ++ classB
    ++ leBytes 4 propsR.length ++ propsR
    ++ leBytes 4 metaR.length ++ metaR
    ++ leBytes 4 weightsR.length ++ weightsR ++ tail

/-- The frame of an object as produced before named-vector support existed:
it ends immediately after the vector-weights region. -/
def encodeLegacyBytes (o : StorObj) : Bytes :=
  [o.marshallerVersion] ++ leBytes 8 o.docID ++ [1] ++ o.obj.id
    ++ leBytes 8 o.obj.creationTimeUnix ++ leBytes 8 o.obj.lastUpdateTimeUnix
    ++ leBytes 2 (vecOf o).length ++ packWords (vecOf o)
    ++ leBytes 2 o.obj.className.length ++ o.obj.className
    ++ leBytes 4 (schemaBytes o).length ++ schemaBytes o
    ++ leBytes 4 (metaBytes o).length ++ metaBytes o
    ++ leBytes 4 (weightsBytes o).length ++ weightsBytes o

/-- The suffix of the frame at offset 42 (everything from the primary-vector
length on). -/
def frameTail42 (o : StorObj) : Bytes :=
  leBytes 2 (vecOf o).length ++ packWords (vecOf o)
    ++ leBytes 2 o.obj.className.length ++ o.obj.className
    ++ leBytes 4 (schemaBytes o).length ++ schemaBytes o
    ++ leBytes 4 (metaBytes o).length ++ metaBytes o
    ++ leBytes 4 (weightsBytes o).length ++ weightsBytes o
    ++ leBytes 4 (offsetsBytesOf o).length ++ offsetsBytesOf o
    ++ leBytes 4 (segLenOf (vecsOf o)) ++ segBytesOf o

/-- The ASCII bytes of `Thing`. -/
def thingBytes : Bytes := [84, 104, 105, 110, 103]

/-- A concrete object of class `Thing` whose primary vector has 16384
words, all with bit pattern `b`. -/
def o16384 (b : Nat) : StorObj :=
  { marshallerVersion := 1, docID := 7,
    obj := { id := List.replicate 16 9, className := thingBytes },
    vector := some (List.replicate 16384 b), vectorLen := 16384 }

/-- A concrete object whose primary vector has 16384 words, all with bit
pattern 1 (a denormal float, chosen non-zero). -/
def o16384ones : StorObj := o16384 1

/-- A concrete object whose primary vector has 16384 zero words and whose
class is `Thing`. -/
def o16384zeros : StorObj := o16384 0

/-- A small concrete object for the bulk-fetch scenario: doc id `d`, a fixed
uuid, class `A`, no vector, no JSON content, no named vectors. -/
def mkObj (d : Nat) : StorObj :=
  { marshallerVersion := 1, docID := d,
    obj := { id := List.replicate 16 9, className := [65] } }

/-- The bucket of the bulk-fetch scenario: id 3 is missing, every other id
holds the frame of `mkObj`. -/
def bucketC : Bucket :=
  fun d => if d = 3 then none else some (encodeBytes (mkObj d))

/-- A concrete object sitting exactly at the `u16` vector boundary: 65535
zero words. -/
def o65535 : StorObj :=
  { marshallerVersion := 1, docID := 1,
    obj := { id := List.replicate 16 3, className := [65] },
    vector := some (List.replicate 65535 0) }

/-- A concrete object one past the `u16` vector boundary: 65536 words. -/
def o65536 : StorObj :=
  { marshallerVersion := 1, docID := 1,
    obj := { id := List.replicate 16 3, className := [65] },
    vector := some (List.replicate 65536 0) }

/-- A concrete object with one named vector `a` of one word. -/
def oNamed : StorObj :=
  { marshallerVersion := 1, docID := 2,
    obj := { id := List.replicate 16 4, className := [65] },
    vectors := some [([97], [5])] }

/-- A concrete object whose properties hold one null-valued key `k` and one
string-valued key `l`. -/
def oNullProp : StorObj :=
  { marshallerVersion := 1, docID := 3,
    obj := { id := List.replicate 16 5, className := [65],
             properties := some [([107], JVal.jnull), ([108], JVal.jstr [97])] } }

@[simp] theorem except_bind_ok {α β : Type} (a : α) (f : α → Except Err β) :
    (Except.ok a >>= f) = f a := rfl

@[simp] theorem except_bind_error {α β : Type} (e : Err) (f : α → Except Err β) :
    ((Except.error e : Except Err α) >>= f) = .error e := rfl

@[simp] theorem except_pure {α : Type} (a : α) : (pure a : Except Err α) = .ok a := rfl

@[simp] theorem leBytes_length (k n : Nat) : (leBytes k n).length = k := by
  induction k generalizing n with
  | zero => rfl
  | succ k ih => simp [leBytes, ih]

theorem readLE_leBytes (k n : Nat) : readLE (leBytes k n) = n % 256 ^ k := by
  induction k generalizing n with
  | zero => simp [leBytes, readLE, Nat.mod_one]
  | succ k ih =>
    rw [leBytes, readLE, ih, pow_succ, mul_comm (256 ^ k) 256, Nat.mod_mul]

theorem pBytes_exact {a : Bytes} {n : Nat} (h : a.length = n) (b : Bytes) :
    pBytes n (a ++ b) = .ok (a, b) := by
  have hle : n ≤ (a ++ b).length := by simp [List.length_append]; omega
  rw [pBytes, if_pos hle, List.take_left' h, List.drop_left' h]

@[simp] theorem pU8_cons (b : Nat) (rest : Bytes) : pU8 (b :: rest) = .ok (b, rest) := rfl

theorem pU16_enc {n : Nat} (h : n < 65536) (rest : Bytes) :
    pU16 (leBytes 2 n ++ rest) = .ok (n, rest) := by
  rw [pU16, pBytes_exact (leBytes_length 2 n) rest]
  simp only [readLE_leBytes]
  norm_num
  omega

theorem pU32_enc {n : Nat} (h : n < 2 ^ 32) (rest : Bytes) :
    pU32 (leBytes 4 n ++ rest) = .ok (n, rest) := by
  rw [pU32, pBytes_exact (leBytes_length 4 n) rest]
  simp only [readLE_leBytes]
  norm_num at h ⊢
  omega

theorem pU64_enc {n : Nat} (h : n < 2 ^ 64) (rest : Bytes) :
    pU64 (leBytes 8 n ++ rest) = .ok (n, rest) := by
  rw [pU64, pBytes_exact (leBytes_length 8 n) rest]
  simp only [readLE_leBytes]
  norm_num at h ⊢
  omega

theorem pSkip_exact {a : Bytes} {n : Nat} (h : a.length = n) (b : Bytes) :
    pSkip n (a ++ b) = b := by
  simp [pSkip, List.drop_left' h]

@[simp] theorem packWords_length (v : List Nat) : (packWords v).length = 4 * v.length := by
  induction v with
  | nil => rfl
  | cons x xs ih => simp [packWords, ih]; ring

theorem pFloats_enc {v : List Nat} (h : ∀ x ∈ v, x < 2 ^ 32) (rest : Bytes) :
    pFloats v.length (packWords v ++ rest) = .ok (v, rest) := by
  induction v with
  | nil => simp [packWords, pFloats]
  | cons x xs ih =>
    have hx : x < 2 ^ 32 := h x (by simp)
    have hxs : ∀ y ∈ xs, y < 2 ^ 32 := fun y hy => h y (by simp [hy])
    simp only [packWords, List.length_cons, pFloats, List.append_assoc]
    rw [pU32_enc hx]
    simp only [except_bind_ok]
    rw [ih hxs]
    simp

theorem pJVal_enc {v : JVal} (h : wfJVal v = true) (rest : Bytes) :
    pJVal (encJVal v ++ rest) = .ok (v, rest) := by
  cases v with
  | jnull => simp [encJVal, pJVal]
  | jbool b => cases b <;> simp [encJVal, pJVal]
  | jnum n =>
    have hn : n < 2 ^ 64 := by simpa [wfJVal] using h
    simp only [encJVal, List.cons_append, List.append_assoc, pJVal]
    rw [pBytes_exact (leBytes_length 8 n) rest]
    simp only [readLE_leBytes]
    norm_num at hn ⊢
    omega
  | jstr s =>
    have hs : s.length < 2 ^ 32 := by simpa [wfJVal] using h
    have h1 := pU32_enc hs (s ++ rest)
    have h2 := pBytes_exact (rfl : s.length = s.length) rest
    simp [encJVal, List.cons_append, List.append_assoc, pJVal, h1, h2]

theorem encEntry_ne_nil (e : Bytes × JVal) : encEntry e ≠ [] := by
  simp only [encEntry, leBytes]
  intro hcontra
  simp at hcontra

theorem encEntries_length_lb (m : PropMap) : m.length ≤ (encEntries m).length := by
  induction m with
  | nil => simp [encEntries]
  | cons e rest ih =>
    have h1 : 1 ≤ (encEntry e).length := by
      cases he : encEntry e with
      | nil => exact absurd he (encEntry_ne_nil e)
      | cons b r => simp
    simp only [encEntries, List.length_append, List.length_cons]
    omega

theorem pEntries_step (fuel : Nat) (s : Bytes) (hs : s ≠ []) :
    pEntries (fuel + 1) s =
      match pU32 s with
      | .error _ => .error .malformedJSON
      | .ok (klen, s1) =>
        match pBytes klen s1 with
        | .error _ => .error .malformedJSON
        | .ok (key, s2) =>
          match pJVal s2 with
          | .error e => .error e
          | .ok (v, s3) =>
            match pEntries fuel s3 with
            | .error e => .error e
            | .ok rest => .ok ((key, v) :: rest) := by
  cases s with
  | nil => exact absurd rfl hs
  | cons b r => rfl

theorem pEntries_enc {m : PropMap} (hm : wfMap m = true) :
    ∀ fuel, m.length < fuel → pEntries fuel (encEntries m) = .ok m := by
  induction m with
  | nil => intro fuel _; cases fuel <;> rfl
  | cons e rest ih =>
    intro fuel hfuel
    have hk : e.1.length < 2 ^ 32 := by
      have := hm
      simp [wfMap, List.all_cons] at this
      exact this.1.1
    have hv : wfJVal e.2 = true := by
      have := hm
      simp [wfMap, List.all_cons] at this
      exact this.1.2
    have hrest : wfMap rest = true := by
      have := hm
      simp [wfMap, List.all_cons] at this
      simp [wfMap]
      exact this.2
    cases fuel with
    | zero => omega
    | succ f =>
      have hne : encEntries (e :: rest) ≠ [] := by
        simp only [encEntries]
        intro hcontra
        exact encEntry_ne_nil e (List.append_eq_nil.mp hcontra).1
      rw [pEntries_step f _ hne]
      have hshape : encEntries (e :: rest) =
          leBytes 4 e.1.length ++ (e.1 ++ (encJVal e.2 ++ encEntries rest)) := by
        simp [encEntries, encEntry, List.append_assoc]
      have h1 := pU32_enc hk (e.1 ++ (encJVal e.2 ++ encEntries rest))
      have h2 := pBytes_exact (rfl : e.1.length = e.1.length) (encJVal e.2 ++ encEntries rest)
      have h3 := pJVal_enc hv (encEntries rest)
      have h4 := ih hrest f (by simp at hfuel; omega)
      rw [hshape]
      simp only [h1, h2, h3, h4]

theorem jsonUnmarshalMap_marshal {p : Option PropMap} (h : wfOptMap p = true) :
    jsonUnmarshalMap (jsonMarshalMap p) = .ok p := by
  cases p with
  | none => rfl
  | some m =>
    have hne : (123 : Nat) :: encEntries m ≠ nullBytes := by
      simp [nullBytes]
    rw [jsonMarshalMap, jsonUnmarshalMap, if_neg hne]
    rw [pEntries_enc (by simpa [wfOptMap] using h) ((encEntries m).length + 1)
      (by have := encEntries_length_lb m; omega)]

theorem jsonUnmarshalVal_marshal {w : Option JVal} (h : wfOptVal w = true) :
    jsonUnmarshalVal (jsonMarshalVal w) = .ok w := by
  cases w with
  | none => rfl
  | some v =>
    have hne : (124 : Nat) :: encJVal v ≠ nullBytes := by
      simp [nullBytes]
    rw [jsonMarshalVal, jsonUnmarshalVal, if_neg hne]
    have h1 := pJVal_enc (by simpa [wfOptVal] using h) ([] : Bytes)
    rw [List.append_nil] at h1
    simp [h1]

theorem jsonMarshalMap_length_pos (p : Option PropMap) : 0 < (jsonMarshalMap p).length := by
  cases p <;> simp [jsonMarshalMap, nullBytes]

theorem pOffsets_step (fuel : Nat) (s : Bytes) (hs : s ≠ []) :
    pOffsets (fuel + 1) s =
      match pU16 s with
      | .error _ => .error .malformedOffsets
      | .ok (nlen, s1) =>
        match pBytes nlen s1 with
        | .error _ => .error .malformedOffsets
        | .ok (name, s2) =>
          match pU32 s2 with
          | .error _ => .error .malformedOffsets
          | .ok (off, s3) =>
            match pOffsets fuel s3 with
            | .error e => .error e
            | .ok rest => .ok ((name, off) :: rest) := by
  cases s with
  | nil => exact absurd rfl hs
  | cons b r => rfl

theorem pOffsets_enc {l : List (Bytes × Nat)}
    (h : ∀ e ∈ l, e.1.length < 2 ^ 16 ∧ e.2 < 2 ^ 32) :
    ∀ fuel, l.length < fuel → pOffsets fuel (msgpackMarshalOffsets l) = .ok l := by
  induction l with
  | nil => intro fuel _; cases fuel <;> rfl
  | cons e rest ih =>
    intro fuel hfuel
    have he := h e (by simp)
    have hrest : ∀ x ∈ rest, x.1.length < 2 ^ 16 ∧ x.2 < 2 ^ 32 :=
      fun x hx => h x (by simp [hx])
    cases fuel with
    | zero => omega
    | succ f =>
      have hne : msgpackMarshalOffsets (e :: rest) ≠ [] := by
        cases e with
        | mk nm off => simp [msgpackMarshalOffsets, leBytes]
      rw [pOffsets_step f _ hne]
      have hshape : msgpackMarshalOffsets (e :: rest) =
          leBytes 2 e.1.length ++ (e.1 ++ (leBytes 4 e.2 ++ msgpackMarshalOffsets rest)) := by
        cases e with
        | mk nm off => simp [msgpackMarshalOffsets, List.append_assoc]
      have h1 := pU16_enc he.1 (e.1 ++ (leBytes 4 e.2 ++ msgpackMarshalOffsets rest))
      have h2 := pBytes_exact (rfl : e.1.length = e.1.length)
        (leBytes 4 e.2 ++ msgpackMarshalOffsets rest)
      have h3 := pU32_enc he.2 (msgpackMarshalOffsets rest)
      have h4 := ih hrest f (by simp at hfuel; omega)
      rw [hshape]
      simp only [h1, h2, h3, h4]

theorem msgpackMarshalOffsets_length_lb (l : List (Bytes × Nat)) :
    l.length ≤ (msgpackMarshalOffsets l).length := by
  induction l with
  | nil => simp [msgpackMarshalOffsets]
  | cons e rest ih =>
    cases e with
    | mk nm off =>
      simp only [msgpackMarshalOffsets, List.length_append, List.length_cons, leBytes_length]
      omega

theorem msgpackUnmarshalOffsets_marshal {l : List (Bytes × Nat)}
    (h : ∀ e ∈ l, e.1.length < 2 ^ 16 ∧ e.2 < 2 ^ 32) :
    msgpackUnmarshalOffsets (msgpackMarshalOffsets l) = .ok l := by
  rw [msgpackUnmarshalOffsets]
  exact pOffsets_enc h ((msgpackMarshalOffsets l).length + 1)
    (by have := msgpackMarshalOffsets_length_lb l; omega)

@[simp] theorem buildSeg_length (vs : List (Bytes × List Nat)) :
    (buildSeg vs).length = segLenOf vs := by
  induction vs with
  | nil => rfl
  | cons e rest ih =>
    cases e with
    | mk nm v => simp [buildSeg, segLenOf, ih]; omega

theorem wfVecs_head {x : Bytes × List Nat} {rest : List (Bytes × List Nat)}
    (h : wfVecs (x :: rest) = true) :
    x.1.length < 65536 ∧ x.2.length ≤ 65535 ∧ (∀ y ∈ x.2, y < 2 ^ 32) ∧ wfVecs rest = true := by
  simp only [wfVecs, List.all_cons, Bool.and_eq_true, decide_eq_true_eq, List.all_eq_true] at h
  obtain ⟨⟨⟨h1, h2⟩, h3⟩, h4⟩ := h
  refine ⟨by omega, h2, fun y hy => h3 y hy, ?_⟩
  simp only [wfVecs, List.all_eq_true]
  intro e he
  simp only [Bool.and_eq_true, decide_eq_true_eq, List.all_eq_true]
  exact h4 e he

theorem offsetsOf_bounds {vs : List (Bytes × List Nat)} (hwf : wfVecs vs = true) :
    ∀ acc, ∀ e ∈ offsetsOf acc vs, e.1.length < 65536 ∧ acc ≤ e.2 ∧ e.2 ≤ acc + segLenOf vs := by
  induction vs with
  | nil => intro acc e he; simp [offsetsOf] at he
  | cons x rest ih =>
    intro acc e he
    obtain ⟨hx, _, _, hrest⟩ := wfVecs_head hwf
    cases x with
    | mk nm v =>
      simp only [offsetsOf, List.mem_cons] at he
      rcases he with he | he
      · subst he
        refine ⟨hx, le_refl acc, ?_⟩
        simp only [segLenOf]
        omega
      · have := ih hrest (acc + (2 + 4 * v.length)) e he
        refine ⟨this.1, by omega, ?_⟩
        simp only [segLenOf]
        omega

theorem readTargetVecs_seg {vs : List (Bytes × List Nat)} (hwf : wfVecs vs = true) :
    ∀ pre : Bytes, readTargetVecs (offsetsOf pre.length vs) (pre ++ buildSeg vs) = .ok vs := by
  induction vs with
  | nil => intro pre; rfl
  | cons x rest ih =>
    intro pre
    obtain ⟨_, hlen65535, hwords, hrest⟩ := wfVecs_head hwf
    have hlen : x.2.length < 65536 := by omega
    cases x with
    | mk nm v =>
      simp only [offsetsOf, readTargetVecs, buildSeg]
      have hskip : pSkip pre.length
          (pre ++ ((leBytes 2 v.length ++ packWords v) ++ buildSeg rest)) =
          leBytes 2 v.length ++ (packWords v ++ buildSeg rest) := by
        rw [pSkip_exact (rfl : pre.length = pre.length)]
        simp [List.append_assoc]
      rw [hskip, pU16_enc hlen]
      simp only [except_bind_ok]
      rw [pFloats_enc hwords]
      simp only [except_bind_ok]
      have harg : offsetsOf (pre.length + (2 + 4 * v.length)) rest =
          offsetsOf (pre ++ (leBytes 2 v.length ++ packWords v)).length rest := by
        have : (pre ++ (leBytes 2 v.length ++ packWords v)).length =
            pre.length + (2 + 4 * v.length) := by
          simp [List.length_append]
        rw [this]
      have hseg : pre ++ ((leBytes 2 v.length ++ packWords v) ++ buildSeg rest) =
          (pre ++ (leBytes 2 v.length ++ packWords v)) ++ buildSeg rest := by
        simp [List.append_assoc]
      rw [harg, hseg, ih hrest]
      simp

theorem unmarshalTargetVectors_enc {vs : List (Bytes × List Nat)} (hwf : wfVecs vs = true)
    (hsg : segLenOf vs ≤ maxU32)
    (hob : (msgpackMarshalOffsets (offsetsOf 0 vs)).length ≤ maxU32) :
    unmarshalTargetVectors (leBytes 4 (msgpackMarshalOffsets (offsetsOf 0 vs)).length ++
      (msgpackMarshalOffsets (offsetsOf 0 vs) ++ (leBytes 4 (segLenOf vs) ++ buildSeg vs))) =
      .ok ((if vs.isEmpty then none else some vs), []) := by
  have hne : leBytes 4 (msgpackMarshalOffsets (offsetsOf 0 vs)).length ++
      (msgpackMarshalOffsets (offsetsOf 0 vs) ++ (leBytes 4 (segLenOf vs) ++ buildSeg vs)) ≠ [] := by
    simp [leBytes]
  have hob32 : (msgpackMarshalOffsets (offsetsOf 0 vs)).length < 2 ^ 32 := by
    simp [maxU32] at hob
    omega
  have hsg32 : segLenOf vs < 2 ^ 32 := by
    simp [maxU32] at hsg
    omega
  rw [unmarshalTargetVectors, if_neg hne]
  have h1 : pLenPrefixed32 (leBytes 4 (msgpackMarshalOffsets (offsetsOf 0 vs)).length ++
      (msgpackMarshalOffsets (offsetsOf 0 vs) ++ (leBytes 4 (segLenOf vs) ++ buildSeg vs))) =
      .ok (msgpackMarshalOffsets (offsetsOf 0 vs), leBytes 4 (segLenOf vs) ++ buildSeg vs) := by
    rw [pLenPrefixed32, pU32_enc hob32]
    simp only [except_bind_ok]
    exact pBytes_exact rfl _
  rw [h1]
  simp only [except_bind_ok]
  rw [pU32_enc hsg32]
  simp only [except_bind_ok]
  cases hv : vs with
  | nil => simp [msgpackMarshalOffsets, offsetsOf, buildSeg]
  | cons x rest =>
    have hvs : vs ≠ [] := by simp [hv]
    have hobne : msgpackMarshalOffsets (offsetsOf 0 vs) ≠ [] := by
      rw [hv]
      cases x with
      | mk nm v => simp [offsetsOf, msgpackMarshalOffsets, leBytes]
    rw [← hv]
    rw [if_neg hobne]
    have hbounds : ∀ e ∈ offsetsOf 0 vs, e.1.length < 2 ^ 16 ∧ e.2 < 2 ^ 32 := by
      intro e he
      have := offsetsOf_bounds hwf 0 e he
      exact ⟨this.1, by omega⟩
    rw [msgpackUnmarshalOffsets_marshal hbounds]
    simp only []
    have hrt := readTargetVecs_seg hwf ([] : Bytes)
    simp only [List.length_nil, List.nil_append] at hrt
    rw [hrt]
    simp only [except_bind_ok]
    have hdrop : pSkip (segLenOf vs) (buildSeg vs) = [] := by
      rw [pSkip, ← buildSeg_length vs, List.drop_length]
    rw [hdrop]
    simp [hv]

theorem wfVecs_mem {vs : List (Bytes × List Nat)} (h : wfVecs vs = true) :
    ∀ x ∈ vs, x.1.length < 65536 ∧ x.2.length ≤ 65535 ∧ ∀ y ∈ x.2, y < 2 ^ 32 := by
  simp only [wfVecs, List.all_eq_true, Bool.and_eq_true, decide_eq_true_eq] at h
  intro x hx
  obtain ⟨⟨a, b⟩, c⟩ := h x hx
  exact ⟨by omega, b, fun y hy => c y hy⟩

@[simp] theorem pSkip_one_cons (b : Nat) (s : Bytes) : pSkip 1 (b :: s) = s := rfl

theorem marshal_ok {o : StorObj} (h : WFobj o) : MarshalBinary o = .ok (encodeBytes o) := by
  obtain ⟨h1, h16, hdoc, hct, hut, hvl, hvw, hcl, hp, hm, hw, hvs, hsb, hmb, hwb, hob, hsg,
    htot⟩ := h
  have hany : (vecsOf o).any (fun e => maxVectorLength < e.2.length) = false := by
    rw [List.any_eq_false]
    intro x hx
    have := (wfVecs_mem hvs x hx).2.1
    simp [maxVectorLength]
    omega
  rw [MarshalBinary, if_neg (by simp [h1]), parseUUIDBytes, if_pos h16]
  rw [if_neg (by simp only [maxVectorLength]; omega)]
  rw [if_neg (by simp only [maxClassNameLength]; omega)]
  rw [if_neg (by omega), if_neg (by omega), if_neg (by omega)]
  rw [hany]
  simp only [Bool.false_eq_true, if_false]
  rw [if_neg (by omega), if_neg (by omega)]

theorem parseObject_enc (id : Bytes) (ct ut : Nat) (cls : Bytes) {P M : Option PropMap}
    {W : Option JVal} (hP : wfOptMap P = true) (hM : wfOptMap M = true)
    (hW : wfOptVal W = true) :
    parseObject id ct ut cls (jsonMarshalMap P) (jsonMarshalMap M) (jsonMarshalVal W) none 0 =
      .ok { id := id, className := cls, creationTimeUnix := ct, lastUpdateTimeUnix := ut,
            properties := P, additionalM := M, vectorWeights := W } := by
  rw [parseObject]
  rw [if_pos (Or.inl rfl)]
  rw [jsonUnmarshalMap_marshal hP]
  simp only [except_bind_ok]
  rw [if_pos (jsonMarshalMap_length_pos M)]
  rw [jsonUnmarshalMap_marshal hM]
  simp only [except_bind_ok]
  rw [jsonUnmarshalVal_marshal hW]
  simp only [except_bind_ok, enrichSchemaTypes]

theorem unmarshalBinary_encode {o : StorObj} (h : WFobj o) :
    UnmarshalBinary (encodeBytes o) = .ok (restored o) := by
  obtain ⟨h1, h16, hdoc, hct, hut, hvl, hvw, hcl, hp, hm, hw, hvs, hsb, hmb, hwb, hob, hsg,
    htot⟩ := h
  have hvl16 : (vecOf o).length < 65536 := by omega
  have hcl16 : o.obj.className.length < 65536 := by omega
  have hsb32 : (schemaBytes o).length < 2 ^ 32 := by simp only [maxU32] at hsb; omega
  have hmb32 : (metaBytes o).length < 2 ^ 32 := by simp only [maxU32] at hmb; omega
  have hwb32 : (weightsBytes o).length < 2 ^ 32 := by simp only [maxU32] at hwb; omega
  rw [encodeBytes, h1]
  simp only [offsetsBytesOf, segBytesOf, List.append_assoc, List.singleton_append,
    List.cons_append, List.nil_append]
  rw [UnmarshalBinary]
  rw [if_neg (by simp)]
  rw [pU64_enc hdoc]
  simp only [except_bind_ok, pSkip_one_cons]
  rw [pBytes_exact h16]
  simp only [except_bind_ok]
  rw [pU64_enc hct]
  simp only [except_bind_ok]
  rw [pU64_enc hut]
  simp only [except_bind_ok]
  rw [pU16_enc hvl16]
  simp only [except_bind_ok]
  rw [pFloats_enc hvw]
  simp only [except_bind_ok]
  rw [pU16_enc hcl16]
  simp only [except_bind_ok]
  rw [pBytes_exact rfl]
  simp only [except_bind_ok]
  rw [pU32_enc hsb32]
  simp only [except_bind_ok]
  rw [pBytes_exact rfl]
  simp only [except_bind_ok]
  rw [pU32_enc hmb32]
  simp only [except_bind_ok]
  rw [pBytes_exact rfl]
  simp only [except_bind_ok]
  rw [pU32_enc hwb32]
  simp only [except_bind_ok]
  rw [pBytes_exact rfl]
  simp only [except_bind_ok]
  rw [unmarshalTargetVectors_enc hvs hsg hob]
  simp only [except_bind_ok]
  simp only [schemaBytes, metaBytes, weightsBytes]
  rw [parseObject_enc _ _ _ _ hp hm hw]
  simp only [except_bind_ok]
  simp [restored]

theorem insertProp_not_found {m : PropMap} {k : Bytes} (h : findVal m k = none) (v : JVal) :
    insertProp m k v = m ++ [(k, v)] := by
  induction m with
  | nil => rfl
  | cons e rest ih =>
    cases e with
    | mk k0 v0 =>
      by_cases hk : k0 = k
      · subst hk
        simp [findVal] at h
      · have h2 : findVal rest k = none := by
          simpa [findVal, hk] using h
        simp [insertProp, hk, ih h2]

theorem findVal_eq_none {m : PropMap} {k : Bytes} (h : ∀ e ∈ m, e.1 ≠ k) :
    findVal m k = none := by
  induction m with
  | nil => rfl
  | cons e rest ih =>
    have hne := h e (by simp)
    simp only [findVal, if_neg hne]
    exact ih fun x hx => h x (by simp [hx])

theorem findVal_filter_of_mem {m : PropMap} (hnodup : (m.map Prod.fst).Nodup)
    {e : Bytes × JVal} (he : e ∈ m) (hv : e.2 ≠ JVal.jnull) :
    findVal (m.filter (fun x => !(x.2 == JVal.jnull))) e.1 = some e.2 := by
  induction m with
  | nil => simp at he
  | cons x rest ih =>
    have hx_notin : x.1 ∉ rest.map Prod.fst := by
      simp only [List.map_cons, List.nodup_cons] at hnodup
      exact hnodup.1
    have hrest_nodup : (rest.map Prod.fst).Nodup := by
      simp only [List.map_cons, List.nodup_cons] at hnodup
      exact hnodup.2
    rcases List.mem_cons.mp he with he1 | he1
    · subst he1
      have hkeep : (!(e.2 == JVal.jnull)) = true := by
        simp [hv]
      simp [List.filter_cons, hkeep, findVal]
    · have hne : x.1 ≠ e.1 := by
        intro hcontra
        exact hx_notin (hcontra ▸ List.mem_map_of_mem Prod.fst he1)
      by_cases hxk : (!(x.2 == JVal.jnull)) = true
      · simp only [List.filter_cons, hxk, if_true, findVal, if_neg hne]
        exact ih hrest_nodup he1
      · simp only [List.filter_cons, Bool.not_eq_true] at hxk
        simp only [List.filter_cons, hxk]
        exact ih hrest_nodup he1

theorem findVal_filter_of_null {m : PropMap} (hnodup : (m.map Prod.fst).Nodup)
    {e : Bytes × JVal} (he : e ∈ m) (hv : e.2 = JVal.jnull) :
    findVal (m.filter (fun x => !(x.2 == JVal.jnull))) e.1 = none := by
  induction m with
  | nil => simp at he
  | cons x rest ih =>
    have hx_notin : x.1 ∉ rest.map Prod.fst := by
      simp only [List.map_cons, List.nodup_cons] at hnodup
      exact hnodup.1
    have hrest_nodup : (rest.map Prod.fst).Nodup := by
      simp only [List.map_cons, List.nodup_cons] at hnodup
      exact hnodup.2
    rcases List.mem_cons.mp he with he1 | he1
    · subst he1
      have hdrop : (!(e.2 == JVal.jnull)) = false := by
        simp [hv]
      simp only [List.filter_cons, hdrop, Bool.false_eq_true, if_false]
      refine findVal_eq_none fun y hy => ?_
      have hy2 : y ∈ rest := List.mem_of_mem_filter hy
      intro hcontra
      exact hx_notin (hcontra ▸ List.mem_map_of_mem Prod.fst hy2)
    · have hne : x.1 ≠ e.1 := by
        intro hcontra
        exact hx_notin (hcontra ▸ List.mem_map_of_mem Prod.fst he1)
      by_cases hxk : (!(x.2 == JVal.jnull)) = true
      · simp only [List.filter_cons, hxk, if_true, findVal, if_neg hne]
        exact ih hrest_nodup he1
      · simp only [Bool.not_eq_true] at hxk
        simp only [List.filter_cons, hxk]
        exact ih hrest_nodup he1

theorem findVec_of_mem {vs : List (Bytes × List Nat)} (hnodup : (vs.map Prod.fst).Nodup)
    {k : Bytes} {v : List Nat} (hkv : (k, v) ∈ vs) : findVec vs k = some v := by
  induction vs with
  | nil => simp at hkv
  | cons x rest ih =>
    have hx_notin : x.1 ∉ rest.map Prod.fst := by
      simp only [List.map_cons, List.nodup_cons] at hnodup
      exact hnodup.1
    have hrest_nodup : (rest.map Prod.fst).Nodup := by
      simp only [List.map_cons, List.nodup_cons] at hnodup
      exact hnodup.2
    rcases List.mem_cons.mp hkv with he1 | he1
    · cases x with
      | mk k0 v0 =>
        cases he1
        simp [findVec]
    · have hne : x.1 ≠ k := by
        intro hcontra
        have : k ∈ rest.map Prod.fst := List.mem_map_of_mem Prod.fst he1
        exact hx_notin (hcontra ▸ this)
      cases x with
      | mk k0 v0 =>
        simp only [findVec, if_neg hne]
        exact ih hrest_nodup he1

theorem findVec_of_not_mem {vs : List (Bytes × List Nat)} {k : Bytes}
    (hk : k ∉ vs.map Prod.fst) : findVec vs k = none := by
  induction vs with
  | nil => rfl
  | cons x rest ih =>
    cases x with
    | mk k0 v0 =>
      have hne : k0 ≠ k := by
        intro hcontra
        exact hk (by simp [hcontra])
      simp only [findVec, if_neg hne]
      exact ih fun hcontra => hk (by simp [hcontra])

/-- C9: `decode_vector` (`VectorFromBinary`) applied to an empty byte slice
returns a nil vector and no error — the version check and the offset-42
access are only reached for non-empty input. -/
theorem claim_C9 (buffer : List Nat) (targetVector : Bytes) :
    VectorFromBinary [] buffer targetVector = .ok none := rfl

/-- C10: the result projection (`SearchResult`) is not a pure read — it
replaces the receiver's properties map with one holding the object's UUID
under the key `id`, so (whenever `id` was not already a property key) the
stored properties differ after the projection. -/
theorem claim_C10 (o : StorObj) (addl : AddProps) (tenant : Bytes)
    (h : findVal ((o.obj.properties).getD []) idKey = none) :
    (SearchResult o addl tenant).1.obj.properties =
      some (insertProp ((o.obj.properties).getD []) idKey (.jstr o.obj.id)) ∧
    (SearchResult o addl tenant).1.obj.properties ≠ o.obj.properties := by
  constructor
  · simp [SearchResult, PropertiesWithAdditional]
  · simp only [SearchResult, PropertiesWithAdditional]
    cases hp : o.obj.properties with
    | none => simp
    | some m =>
      have h2 : findVal m idKey = none := by
        rw [hp] at h
        simpa using h
      simp only [Option.getD_some, ne_eq, Option.some.injEq]
      intro hcontra
      have hlen := congrArg List.length hcontra
      rw [insertProp_not_found h2] at hlen
      simp at hlen

theorem claim_C10_witness :
    (SearchResult {} {} []).1.obj.properties =
      some (insertProp ((({} : StorObj).obj.properties).getD []) idKey
        (.jstr ({} : StorObj).obj.id)) ∧
    (SearchResult {} {} []).1.obj.properties ≠ ({} : StorObj).obj.properties :=
  claim_C10 {} {} [] (by decide)

theorem pBytes_exact_all {a : Bytes} {n : Nat} (h : a.length = n) : pBytes n a = .ok (a, []) := by
  have h2 := pBytes_exact h ([] : Bytes)
  rwa [List.append_nil] at h2

theorem encodedLen_eq (o : StorObj) : encodedLen o =
    42 + 2 + 4 * (vecOf o).length + 2 + o.obj.className.length
      + 4 + (schemaBytes o).length + 4 + (metaBytes o).length
      + 4 + (weightsBytes o).length + 4 + (offsetsBytesOf o).length
      + 4 + segLenOf (vecsOf o) := rfl

theorem marshal_too_large {o : StorObj} (h1 : o.marshallerVersion = 1)
    (h16 : o.obj.id.length = 16) (hbig : 65535 < (vecOf o).length) :
    MarshalBinary o = .error .fieldTooLarge := by
  rw [MarshalBinary, if_neg (by simp [h1]), parseUUIDBytes, if_pos h16,
    if_pos (by simp only [maxVectorLength]; omega)]

/-- C8: an object whose primary vector has exactly 65535 elements encodes
and round-trips through the full decoder; any object whose primary vector
has more than 65535 elements fails to encode with the field-too-large
error, the check happening before the output buffer exists. -/
theorem claim_C8 (o : StorObj) (h : WFobj o) :
    ((vecOf o).length = 65535 →
      MarshalBinary o = .ok (encodeBytes o) ∧
      UnmarshalBinary (encodeBytes o) = .ok (restored o)) ∧
    (∀ o2 : StorObj, o2.marshallerVersion = 1 → o2.obj.id.length = 16 →
      65535 < (vecOf o2).length → MarshalBinary o2 = .error .fieldTooLarge) :=
  ⟨fun _ => ⟨marshal_ok h, unmarshalBinary_encode h⟩,
   fun _ a b c => marshal_too_large a b c⟩

theorem claim_C8_witness :
    (((vecOf o65535).length = 65535 →
      MarshalBinary o65535 = .ok (encodeBytes o65535) ∧
      UnmarshalBinary (encodeBytes o65535) = .ok (restored o65535)) ∧
    (∀ o2 : StorObj, o2.marshallerVersion = 1 → o2.obj.id.length = 16 →
      65535 < (vecOf o2).length → MarshalBinary o2 = .error .fieldTooLarge)) ∧
    MarshalBinary o65536 = .error .fieldTooLarge := by
  have hvec : vecOf o65535 = List.replicate 65535 0 := rfl
  have hlen : (vecOf o65535).length = 65535 := by rw [hvec, List.length_replicate]
  have hwf : WFobj o65535 := by
    refine ⟨rfl, by decide, by decide, by decide, by decide, le_of_eq hlen, ?_, by decide,
      rfl, rfl, rfl, rfl, by decide, by decide, by decide, by decide, by decide, ?_⟩
    · intro x hx
      rw [hvec, List.mem_replicate] at hx
      omega
    · rw [encodedLen_eq, hlen,
        show schemaBytes o65535 = nullBytes from rfl,
        show metaBytes o65535 = nullBytes from rfl,
        show weightsBytes o65535 = nullBytes from rfl,
        show offsetsBytesOf o65535 = [] from rfl,
        show vecsOf o65535 = ([] : List (Bytes × List Nat)) from rfl,
        show o65535.obj.className = [65] from rfl]
      norm_num [nullBytes, segLenOf]
  have h := claim_C8 o65535 hwf
  refine ⟨h, h.2 o65536 rfl (by decide) ?_⟩
  rw [show vecOf o65536 = List.replicate 65536 0 from rfl, List.length_replicate]
  omega

/-- C7: null-valued property keys are stripped by `FromObject` before
encoding, so after a full round-trip exactly the null-valued keys are absent
and every non-null property is preserved. -/
theorem claim_C7 (o : StorObj) (m : PropMap) (hprops : o.obj.properties = some m)
    (hnodup : (m.map Prod.fst).Nodup) (hWF : WFobj (FromObject o)) :
    (FromObject o).obj.properties = some (m.filter (fun e => !(e.2 == JVal.jnull))) ∧
    MarshalBinary (FromObject o) = .ok (encodeBytes (FromObject o)) ∧
    UnmarshalBinary (encodeBytes (FromObject o)) = .ok (restored (FromObject o)) ∧
    (restored (FromObject o)).obj.properties =
      some (m.filter (fun e => !(e.2 == JVal.jnull))) ∧
    (∀ e ∈ m, e.2 ≠ JVal.jnull →
      findVal (m.filter (fun x => !(x.2 == JVal.jnull))) e.1 = some e.2) ∧
    (∀ e ∈ m, e.2 = JVal.jnull →
      findVal (m.filter (fun x => !(x.2 == JVal.jnull))) e.1 = none) :=
  ⟨by simp [FromObject, hprops], marshal_ok hWF, unmarshalBinary_encode hWF,
   by simp [restored, FromObject, hprops],
   fun _ he hv => findVal_filter_of_mem hnodup he hv,
   fun _ he hv => findVal_filter_of_null hnodup he hv⟩

theorem claim_C7_witness :
    (FromObject oNullProp).obj.properties =
      some (([([107], JVal.jnull), ([108], JVal.jstr [97])] : PropMap).filter
        (fun e => !(e.2 == JVal.jnull))) ∧
    MarshalBinary (FromObject oNullProp) = .ok (encodeBytes (FromObject oNullProp)) ∧
    UnmarshalBinary (encodeBytes (FromObject oNullProp)) =
      .ok (restored (FromObject oNullProp)) ∧
    (restored (FromObject oNullProp)).obj.properties =
      some (([([107], JVal.jnull), ([108], JVal.jstr [97])] : PropMap).filter
        (fun e => !(e.2 == JVal.jnull))) ∧
    (∀ e ∈ ([([107], JVal.jnull), ([108], JVal.jstr [97])] : PropMap), e.2 ≠ JVal.jnull →
      findVal (([([107], JVal.jnull), ([108], JVal.jstr [97])] : PropMap).filter
        (fun x => !(x.2 == JVal.jnull))) e.1 = some e.2) ∧
    (∀ e ∈ ([([107], JVal.jnull), ([108], JVal.jstr [97])] : PropMap), e.2 = JVal.jnull →
      findVal (([([107], JVal.jnull), ([108], JVal.jstr [97])] : PropMap).filter
        (fun x => !(x.2 == JVal.jnull))) e.1 = none) :=
  claim_C7 oNullProp [([107], JVal.jnull), ([108], JVal.jstr [97])] rfl (by decide) (by decide)

/-- C5: a valid version-1 frame that ends immediately after the
vector-weights region (a pre-named-vector payload) decodes successfully via
the full decoder and yields an object with no named vectors, because the
named-vector reader treats an exhausted cursor as section absent. -/
theorem claim_C5 (o : StorObj) (h : WFobj o) (hnov : o.vectors = none) :
    UnmarshalBinary (encodeLegacyBytes o) = .ok (restored o) ∧ (restored o).vectors = none := by
  obtain ⟨h1, h16, hdoc, hct, hut, hvl, hvw, hcl, hp, hm, hw, hvs, hsb, hmb, hwb, hob, hsg,
    htot⟩ := h
  have hvl16 : (vecOf o).length < 65536 := by omega
  have hcl16 : o.obj.className.length < 65536 := by omega
  have hsb32 : (schemaBytes o).length < 2 ^ 32 := by simp only [maxU32] at hsb; omega
  have hmb32 : (metaBytes o).length < 2 ^ 32 := by simp only [maxU32] at hmb; omega
  have hwb32 : (weightsBytes o).length < 2 ^ 32 := by simp only [maxU32] at hwb; omega
  constructor
  · rw [encodeLegacyBytes, h1]
    simp only [List.append_assoc, List.singleton_append, List.cons_append, List.nil_append]
    rw [UnmarshalBinary]
    rw [if_neg (by simp)]
    rw [pU64_enc hdoc]
    simp only [except_bind_ok, pSkip_one_cons]
    rw [pBytes_exact h16]
    simp only [except_bind_ok]
    rw [pU64_enc hct]
    simp only [except_bind_ok]
    rw [pU64_enc hut]
    simp only [except_bind_ok]
    rw [pU16_enc hvl16]
    simp only [except_bind_ok]
    rw [pFloats_enc hvw]
    simp only [except_bind_ok]
    rw [pU16_enc hcl16]
    simp only [except_bind_ok]
    rw [pBytes_exact rfl]
    simp only [except_bind_ok]
    rw [pU32_enc hsb32]
    simp only [except_bind_ok]
    rw [pBytes_exact rfl]
    simp only [except_bind_ok]
    rw [pU32_enc hmb32]
    simp only [except_bind_ok]
    rw [pBytes_exact rfl]
    simp only [except_bind_ok]
    rw [pU32_enc hwb32]
    simp only [except_bind_ok]
    rw [pBytes_exact_all rfl]
    simp only [except_bind_ok]
    rw [show unmarshalTargetVectors [] = .ok (none, []) from rfl]
    simp only [except_bind_ok]
    simp only [schemaBytes, metaBytes, weightsBytes]
    rw [parseObject_enc _ _ _ _ hp hm hw]
    simp only [except_bind_ok]
    simp [restored, vecsOf, hnov]
  · simp [restored, vecsOf, hnov]

theorem claim_C5_witness :
    UnmarshalBinary (encodeLegacyBytes (mkObj 1)) = .ok (restored (mkObj 1)) ∧
    (restored (mkObj 1)).vectors = none :=
  claim_C5 (mkObj 1) (by decide) rfl

theorem getD_if_isEmpty (l : List (Bytes × List Nat)) :
    (if l.isEmpty then (none : Option (List (Bytes × List Nat))) else some l).getD [] = l := by
  cases l <;> simp

theorem pSkip42_encodeBytes {o : StorObj} (h16 : o.obj.id.length = 16) :
    pSkip 42 (encodeBytes o) = frameTail42 o := by
  have hsplit : encodeBytes o =
      ([o.marshallerVersion] ++ leBytes 8 o.docID ++ [1] ++ o.obj.id
        ++ leBytes 8 o.obj.creationTimeUnix ++ leBytes 8 o.obj.lastUpdateTimeUnix)
      ++ frameTail42 o := by
    rw [encodeBytes, frameTail42]
    simp [List.append_assoc]
  rw [hsplit]
  exact pSkip_exact (by simp [List.length_append, h16]) _

theorem encodeBytes_length {o : StorObj} (h16 : o.obj.id.length = 16) :
    (encodeBytes o).length = encodedLen o := by
  rw [encodeBytes, encodedLen_eq]
  simp only [List.length_append, List.length_cons, List.length_nil, leBytes_length,
    packWords_length, segBytesOf, buildSeg_length, h16]

theorem vectorFromBinary_named {o : StorObj} (h : WFobj o) (buffer : List Nat) {k : Bytes}
    (hk : k ≠ []) :
    VectorFromBinary (encodeBytes o) buffer k =
      match findVec (vecsOf o) k with
      | some v => .ok (some v)
      | none => .error .notFound := by
  obtain ⟨h1, h16, hdoc, hct, hut, hvl, hvw, hcl, hp, hm, hw, hvs, hsb, hmb, hwb, hob, hsg,
    htot⟩ := h
  have hvl16 : (vecOf o).length < 65536 := by omega
  have hcl16 : o.obj.className.length < 65536 := by omega
  have hsb32 : (schemaBytes o).length < 2 ^ 32 := by simp only [maxU32] at hsb; omega
  have hmb32 : (metaBytes o).length < 2 ^ 32 := by simp only [maxU32] at hmb; omega
  have hwb32 : (weightsBytes o).length < 2 ^ 32 := by simp only [maxU32] at hwb; omega
  have hob2 : (msgpackMarshalOffsets (offsetsOf 0 (vecsOf o))).length ≤ maxU32 := by
    simpa only [offsetsBytesOf] using hob
  have hdrop := pSkip42_encodeBytes h16
  have hcons : encodeBytes o = 1 :: List.tail (encodeBytes o) := by
    rw [encodeBytes, h1]
    simp
  rw [hcons, VectorFromBinary]
  rw [if_neg (by simp), if_pos hk, ← hcons, hdrop]
  simp only [frameTail42, List.append_assoc]
  rw [pU16_enc hvl16]
  simp only [except_bind_ok]
  rw [pSkip_exact (by rw [packWords_length]; ring)]
  rw [pU16_enc hcl16]
  simp only [except_bind_ok]
  rw [pSkip_exact rfl]
  rw [pU32_enc hsb32]
  simp only [except_bind_ok]
  rw [pSkip_exact rfl]
  rw [pU32_enc hmb32]
  simp only [except_bind_ok]
  rw [pSkip_exact rfl]
  rw [pU32_enc hwb32]
  simp only [except_bind_ok]
  rw [pSkip_exact rfl]
  simp only [offsetsBytesOf, segBytesOf]
  rw [unmarshalTargetVectors_enc hvs hsg hob2]
  simp only [getD_if_isEmpty]

/-- C6: for every name present in an object's named-vector mapping,
`decode_vector` (`VectorFromBinary`) applied to the encoded frame with that
target name returns exactly that named vector (via the offsets map and the
segment seek); a name not in the offsets map yields the not-found error. -/
theorem claim_C6 (o : StorObj) (h : WFobj o) (buffer : List Nat)
    (hnodup : ((vecsOf o).map Prod.fst).Nodup) :
    (∀ k v, (k, v) ∈ vecsOf o → k ≠ [] →
      VectorFromBinary (encodeBytes o) buffer k = .ok (some v)) ∧
    (∀ k, k ≠ [] → k ∉ (vecsOf o).map Prod.fst →
      VectorFromBinary (encodeBytes o) buffer k = .error .notFound) := by
  constructor
  · intro k v hkv hk
    rw [vectorFromBinary_named h buffer hk, findVec_of_mem hnodup hkv]
  · intro k hk hkn
    rw [vectorFromBinary_named h buffer hk, findVec_of_not_mem hkn]

theorem claim_C6_witness :
    (∀ k v, (k, v) ∈ vecsOf oNamed → k ≠ [] →
      VectorFromBinary (encodeBytes oNamed) [] k = .ok (some v)) ∧
    (∀ k, k ≠ [] → k ∉ (vecsOf oNamed).map Prod.fst →
      VectorFromBinary (encodeBytes oNamed) [] k = .error .notFound) :=
  claim_C6 oNamed (by decide) [] (by decide)

/-- C4: whenever the properties region is empty or masked off, the
additional region is empty or unrequested, and the vector-weights region is
empty or exactly the four ASCII bytes `null`, the selective decoder
(`FromBinaryOptional`) does no JSON parsing at all (the regions may hold
arbitrary bytes) and returns an object populated with only the id, the
creation and update times and the class name. -/
theorem claim_C4 (docID : Nat) (uuidB : Bytes) (create update : Nat) (vecWords : List Nat)
    (classB propsR metaR weightsR tail : Bytes) (addProp : AddProps) (pe : Option PropExtract)
    (hdoc : docID < 2 ^ 64) (huuid : uuidB.length = 16)
    (hct : create < 2 ^ 64) (hut : update < 2 ^ 64)
    (hvl : vecWords.length ≤ 65535) (hcl : classB.length ≤ 65535)
    (hpR : propsR.length ≤ maxU32) (hmR : metaR.length ≤ maxU32)
    (hwR : weightsR.length ≤ maxU32)
    (hvecmask : addProp.vector = false) (hvecsmask : addProp.vectors = [])
    (hP : addProp.noProps = true ∨ propsR = [])
    (hM : metaR = [] ∨ (addProp.classification = false ∧ addProp.moduleParams = []))
    (hW : weightsR = [] ∨ weightsR = nullBytes) :
    FromBinaryOptional
      (mkFrame docID uuidB create update vecWords classB propsR metaR weightsR tail)
      addProp pe =
      .ok { marshallerVersion := 1, docID := docID,
            obj := { id := uuidB, className := classB,
                     creationTimeUnix := create, lastUpdateTimeUnix := update },
            vector := none, vectorLen := vecWords.length, vectors := none } := by
  have hvl16 : vecWords.length < 65536 := by omega
  have hcl16 : classB.length < 65536 := by omega
  have hp32 : propsR.length < 2 ^ 32 := by simp only [maxU32] at hpR; omega
  have hm32 : metaR.length < 2 ^ 32 := by simp only [maxU32] at hmR; omega
  have hw32 : weightsR.length < 2 ^ 32 := by simp only [maxU32] at hwR; omega
  rw [mkFrame]
  simp only [List.append_assoc, List.singleton_append, List.cons_append, List.nil_append]
  rw [FromBinaryOptional]
  simp only [pU8_cons, except_bind_ok]
  rw [if_neg (by simp)]
  rw [pU64_enc hdoc]
  simp only [except_bind_ok, pSkip_one_cons]
  rw [pBytes_exact huuid]
  simp only [except_bind_ok]
  rw [pU64_enc hct]
  simp only [except_bind_ok]
  rw [pU64_enc hut]
  simp only [except_bind_ok]
  rw [pU16_enc hvl16]
  simp only [except_bind_ok]
  rw [hvecmask]
  simp only [Bool.false_eq_true, if_false, except_bind_ok]
  rw [pSkip_exact (by rw [packWords_length]; ring)]
  rw [pU16_enc hcl16]
  simp only [except_bind_ok]
  rw [pBytes_exact rfl]
  simp only [except_bind_ok]
  rw [pU32_enc hp32]
  simp only [except_bind_ok]
  rw [show (if addProp.noProps = true then
      (.ok (([] : Bytes), pSkip propsR.length (propsR ++ (leBytes 4 metaR.length ++
        (metaR ++ (leBytes 4 weightsR.length ++ (weightsR ++ tail)))))) :
        Except Err (Bytes × Bytes))
    else pBytes propsR.length (propsR ++ (leBytes 4 metaR.length ++
      (metaR ++ (leBytes 4 weightsR.length ++ (weightsR ++ tail)))))) =
    .ok (([] : Bytes), leBytes 4 metaR.length ++
      (metaR ++ (leBytes 4 weightsR.length ++ (weightsR ++ tail)))) from by
    rcases hP with hnp | hpe
    · rw [if_pos hnp, pSkip_exact rfl]
    · subst hpe
      cases addProp.noProps <;> simp [pSkip, pBytes]]
  simp only [except_bind_ok]
  rw [pU32_enc hm32]
  simp only [except_bind_ok]
  rw [show (if (addProp.classification || !addProp.moduleParams.isEmpty) = true then
      pBytes metaR.length (metaR ++ (leBytes 4 weightsR.length ++ (weightsR ++ tail)))
    else (.ok (([] : Bytes), pSkip metaR.length (metaR ++ (leBytes 4 weightsR.length ++
      (weightsR ++ tail)))) : Except Err (Bytes × Bytes))) =
    .ok (([] : Bytes), leBytes 4 weightsR.length ++ (weightsR ++ tail)) from by
    rcases hM with hme | ⟨hc, hmp⟩
    · subst hme
      cases (addProp.classification || !addProp.moduleParams.isEmpty) <;>
        simp [pSkip, pBytes]
    · rw [hc, hmp]
      simp only [List.isEmpty_nil, Bool.not_true, Bool.or_false]
      rw [if_neg (by simp), pSkip_exact rfl]]
  simp only [except_bind_ok]
  rw [pU32_enc hw32]
  simp only [except_bind_ok]
  rw [pBytes_exact rfl]
  simp only [except_bind_ok]
  rw [hvecsmask]
  simp only [List.isEmpty_nil, Bool.not_true, Bool.false_eq_true, if_false, except_bind_ok]
  rw [if_neg (by
    rcases hW with hwe | hwn
    · subst hwe
      simp
    · subst hwn
      simp [nullBytes])]

theorem pBytes_zero (s : Bytes) : pBytes 0 s = .ok ([], s) := by
  simp [pBytes]

theorem pU16_cons (a b : Nat) (r : Bytes) : pU16 (a :: b :: r) = .ok (a + 256 * b, r) := by
  have h : pBytes 2 ([a, b] ++ r) = .ok ([a, b], r) :=
    pBytes_exact (show ([a, b] : Bytes).length = 2 from rfl) r
  simp only [List.cons_append, List.nil_append] at h
  rw [pU16, h]
  simp [readLE]

theorem pSkip_two {a b c : Bytes} {n : Nat} (h : a.length + b.length = n) :
    pSkip n (a ++ (b ++ c)) = c := by
  rw [← List.append_assoc]
  exact pSkip_exact (by simp [h]) _

theorem wf_o16384 (b : Nat) (hb : b < 2 ^ 32) : WFobj (o16384 b) := by
  have hvec : vecOf (o16384 b) = List.replicate 16384 b := rfl
  have hlen : (List.replicate 16384 b).length = 16384 := List.length_replicate 16384 b
  refine ⟨rfl,
    by rw [show (o16384 b).obj.id = List.replicate 16 9 from rfl]; decide,
    by rw [show (o16384 b).docID = 7 from rfl]; decide,
    by rw [show (o16384 b).obj.creationTimeUnix = 0 from rfl]; decide,
    by rw [show (o16384 b).obj.lastUpdateTimeUnix = 0 from rfl]; decide,
    by rw [hvec, hlen]; omega, ?_,
    by rw [show (o16384 b).obj.className = thingBytes from rfl]; decide,
    rfl, rfl, rfl, rfl,
    by rw [show schemaBytes (o16384 b) = nullBytes from rfl]; decide,
    by rw [show metaBytes (o16384 b) = nullBytes from rfl]; decide,
    by rw [show weightsBytes (o16384 b) = nullBytes from rfl]; decide,
    by rw [show offsetsBytesOf (o16384 b) = [] from rfl]; decide,
    by rw [show vecsOf (o16384 b) = ([] : List (Bytes × List Nat)) from rfl]; decide, ?_⟩
  · intro x hx
    rw [hvec, List.mem_replicate] at hx
    omega
  · rw [encodedLen_eq, hvec, hlen]
    norm_num [nullBytes, segLenOf, thingBytes,
      show schemaBytes (o16384 b) = nullBytes from rfl,
      show metaBytes (o16384 b) = nullBytes from rfl,
      show weightsBytes (o16384 b) = nullBytes from rfl,
      show offsetsBytesOf (o16384 b) = [] from rfl,
      show vecsOf (o16384 b) = ([] : List (Bytes × List Nat)) from rfl,
      show (o16384 b).obj.className = thingBytes from rfl]

theorem pSkip_eq_drop (n : Nat) (s : Bytes) : pSkip n s = s.drop n := rfl

theorem vectorFromBinary_wrap16384 {o : StorObj} (h1 : o.marshallerVersion = 1)
    (h16 : o.obj.id.length = 16) (hvl : (vecOf o).length = 16384) :
    VectorFromBinary (encodeBytes o) [] [] = .ok (some (List.replicate 16384 0)) := by
  have hL : (encodeBytes o).length = encodedLen o := encodeBytes_length h16
  have hL44 : 44 ≤ (encodeBytes o).length := by
    rw [hL, encodedLen_eq]
    omega
  have hdrop : List.drop 42 (encodeBytes o) = frameTail42 o := by
    rw [← pSkip_eq_drop]
    exact pSkip42_encodeBytes h16
  have hread : readLE ((List.drop 42 (encodeBytes o)).take 2) = 16384 := by
    rw [hdrop, frameTail42, hvl]
    simp only [List.append_assoc]
    rw [List.take_left' (leBytes_length 2 16384), readLE_leBytes]
    norm_num
  have hcons : encodeBytes o = 1 :: List.tail (encodeBytes o) := by
    rw [encodeBytes, h1]
    simp
  rw [hcons, VectorFromBinary, ← hcons]
  rw [if_neg (by simp), if_neg (by simp)]
  rw [if_neg (by omega)]
  rw [hread]
  rw [if_neg (by rw [show (16384 * 4 % 65536 : Nat) = 0 from by norm_num]; omega)]
  rw [show (16384 * 4 % 65536 / 4 : Nat) = 0 from by norm_num]
  simp only [List.range_zero, List.map_nil, List.nil_append, List.drop_zero, List.length_nil]
  rw [if_neg (by omega)]

theorem fromBinaryUUIDOnly_wrap16384 {o : StorObj} (h1 : o.marshallerVersion = 1)
    (h16 : o.obj.id.length = 16) (hdoc : o.docID < 2 ^ 64)
    (hvl : (vecOf o).length = 16384) {r : Bytes}
    (hshape : packWords (vecOf o) = 0 :: 0 :: 0 :: 0 :: r) :
    FromBinaryUUIDOnly (encodeBytes o) =
      .ok { marshallerVersion := 1, docID := o.docID,
            obj := { id := o.obj.id, className := [] } } := by
  rw [encodeBytes, h1]
  simp only [List.append_assoc, List.singleton_append, List.cons_append, List.nil_append]
  rw [FromBinaryUUIDOnly]
  simp only [pU8_cons, except_bind_ok]
  rw [if_neg (by simp)]
  rw [pU64_enc hdoc]
  simp only [except_bind_ok, pSkip_one_cons]
  rw [pBytes_exact h16]
  simp only [except_bind_ok]
  rw [pSkip_two (by simp)]
  rw [pU16_enc (show (vecOf o).length < 65536 from by omega)]
  simp only [except_bind_ok]
  rw [hvl]
  rw [show (16384 * 4 % 65536 : Nat) = 0 from by norm_num]
  rw [show ∀ s : Bytes, pSkip 0 s = s from fun s => List.drop_zero s]
  rw [hshape]
  simp only [List.cons_append]
  rw [pU16_cons]
  simp only [except_bind_ok]
  rw [show (0 + 256 * 0 : Nat) = 0 from by norm_num, pBytes_zero]
  simp only [except_bind_ok]

theorem parallelChunks_stop (bucket : Bucket) (addProp : AddProps)
    (properties : Option (List Bytes)) (ids : List Nat) (cs fuel c : Nat)
    (h : ids.length ≤ c * cs) :
    parallelChunks bucket addProp properties ids cs fuel c = .ok [] := by
  cases fuel with
  | zero => rfl
  | succ f =>
    rw [parallelChunks]
    simp only [if_pos h]

theorem parallelChunks_fuel (bucket : Bucket) (addProp : AddProps)
    (properties : Option (List Bytes)) (ids : List Nat) (cs : Nat) :
    ∀ f g c, ids.length ≤ c * cs + f * cs → ids.length ≤ c * cs + g * cs →
    parallelChunks bucket addProp properties ids cs f c =
      parallelChunks bucket addProp properties ids cs g c := by
  intro f
  induction f with
  | zero =>
    intro g c hf hg
    rw [show parallelChunks bucket addProp properties ids cs 0 c = .ok [] from rfl]
    rw [parallelChunks_stop bucket addProp properties ids cs g c (by simpa using hf)]
  | succ f ih =>
    intro g c hf hg
    cases g with
    | zero =>
      rw [show parallelChunks bucket addProp properties ids cs 0 c = .ok [] from rfl]
      rw [parallelChunks_stop bucket addProp properties ids cs (f + 1) c (by simpa using hg)]
    | succ g =>
      by_cases hc : ids.length ≤ c * cs
      · rw [parallelChunks_stop bucket addProp properties ids cs (f + 1) c hc,
          parallelChunks_stop bucket addProp properties ids cs (g + 1) c hc]
      · rw [parallelChunks, parallelChunks]
        simp only [if_neg hc]
        have e : c * cs + (f + 1) * cs = (c + 1) * cs + f * cs := by ring
        rw [e] at hf
        have e2 : c * cs + (g + 1) * cs = (c + 1) * cs + g * cs := by ring
        rw [e2] at hg
        rw [ih g (c + 1) hf hg]

/-- C1: refuted by the code — the parallel bulk fetch returns the output
slice exactly as the chunk tasks filled it, so a missing id leaves a nil
hole and the slice keeps the full input length: for ids `[1, 2, 3, 4]` with
id 3 missing the result has length 4 and contains a `none`, not the
compacted length-3 slice the claim describes (the fetched objects do keep
input order, and no error is returned). -/
theorem claim_C1 (parallel : Nat) (h : 2 ≤ parallel) :
    ∃ out, ObjectsByDocID parallel bucketC [1, 2, 3, 4] {} none = .ok out ∧
      out.length = 4 ∧ none ∈ out ∧
      (out.filterMap id).map StorObj.docID = [1, 2, 4] := by
  rcases parallel with _ | _ | _ | _ | p
  · exact absurd h (by decide)
  · exact absurd h (by decide)
  · exact ⟨[some (mkObj 1), some (mkObj 2), some (mkObj 4), none],
      by rfl, by decide, by decide, by decide⟩
  · exact ⟨[some (mkObj 1), some (mkObj 2), some (mkObj 4), none],
      by rfl, by decide, by decide, by decide⟩
  · refine ⟨[some (mkObj 1), some (mkObj 2), none, some (mkObj 4)],
      ?_, by decide, by decide, by decide⟩
    rw [ObjectsByDocID, if_neg (by decide)]
    simp only [objectsByDocIDParallel]
    have hd : (([1, 2, 3, 4] : List Nat).length + (p + 4) - 1) / (p + 4) = 1 := by
      show (4 + (p + 4) - 1) / (p + 4) = 1
      rw [show 4 + (p + 4) - 1 = p + 7 from by omega]
      exact Nat.div_eq_of_lt_le (by omega) (by omega)
    rw [hd, show (max 1 1 : Nat) = 1 from rfl]
    rw [parallelChunks_fuel bucketC {} none [1, 2, 3, 4] 1 (p + 4) 4 0
      (by show 4 ≤ 0 * 1 + (p + 4) * 1; omega) (by show 4 ≤ 0 * 1 + 4 * 1; omega)]
    rfl

theorem claim_C1_witness :
    ∃ out, ObjectsByDocID 2 bucketC [1, 2, 3, 4] {} none = .ok out ∧
      out.length = 4 ∧ none ∈ out ∧
      (out.filterMap id).map StorObj.docID = [1, 2, 4] :=
  claim_C1 2 (by decide)

/-- C2: the primary-vector-length field of the frame does sit at byte offset
42; but for a 16384-word vector `decode_vector` with an empty target returns
16384 zero words instead of the stored vector — the loop bound
`44 + int(vecLen*4)` multiplies inside the `uint16` and wraps to 44, so no
word is copied.  This refutes the claim that the primary vector is always
returned bit-identically. -/
theorem claim_C2 :
    MarshalBinary o16384ones = .ok (encodeBytes o16384ones) ∧
    VectorFromBinary (encodeBytes o16384ones) [] [] = .ok (some (List.replicate 16384 0)) ∧
    o16384ones.vector = some (List.replicate 16384 1) ∧
    (List.replicate 16384 (0 : Nat)) ≠ List.replicate 16384 1 := by
  have hwf : WFobj o16384ones := wf_o16384 1 (by norm_num)
  refine ⟨marshal_ok hwf, ?_, rfl, ?_⟩
  · exact vectorFromBinary_wrap16384 rfl (by decide)
      (by rw [show vecOf o16384ones = List.replicate 16384 1 from rfl, List.length_replicate])
  · intro hcontra
    have h0 : (List.replicate 16384 (0 : Nat)).headD 99 =
        (List.replicate 16384 (1 : Nat)).headD 99 := by rw [hcontra]
    rw [show (List.replicate 16384 (0 : Nat)).headD 99 = 0 from rfl,
      show (List.replicate 16384 (1 : Nat)).headD 99 = 1 from rfl] at h0
    exact absurd h0 (by omega)

/-- C3: `FromBinaryUUIDOnly` recovers the id of a 16384-dimension object but
not its class: the vector-body skip `uint64(vecLen * 4)` multiplies inside
the `uint16` and wraps to zero for 16384, so the class-name length is read
from the first vector bytes and the decoded class is empty instead of
`Thing`.  This refutes the claim for every vector length up to 65535. -/
theorem claim_C3 :
    MarshalBinary o16384zeros = .ok (encodeBytes o16384zeros) ∧
    FromBinaryUUIDOnly (encodeBytes o16384zeros) =
      .ok { marshallerVersion := 1, docID := 7,
            obj := { id := List.replicate 16 9, className := [] } } ∧
    o16384zeros.obj.className = thingBytes ∧ thingBytes ≠ [] := by
  have hwf : WFobj o16384zeros := wf_o16384 0 (by norm_num)
  refine ⟨marshal_ok hwf, ?_, rfl, by decide⟩
  have h := fromBinaryUUIDOnly_wrap16384 (o := o16384zeros) rfl (by decide) (by decide)
    (by rw [show vecOf o16384zeros = List.replicate 16384 0 from rfl, List.length_replicate])
    (show packWords (vecOf o16384zeros) =
      0 :: 0 :: 0 :: 0 :: packWords (List.replicate 16383 0) from rfl)
  rw [show o16384zeros.docID = 7 from rfl, show o16384zeros.obj.id = List.replicate 16 9
    from rfl] at h
  exact h

theorem claim_C4_witness :
    FromBinaryOptional
      (mkFrame 5 (List.replicate 16 8) 10 20 [1, 2] [66] [42, 43] [] nullBytes [9, 9])
      { noProps := true } none =
      .ok { marshallerVersion := 1, docID := 5,
            obj := { id := List.replicate 16 8, className := [66],
                     creationTimeUnix := 10, lastUpdateTimeUnix := 20 },
            vector := none, vectorLen := 2, vectors := none } :=
  claim_C4 5 (List.replicate 16 8) 10 20 [1, 2] [66] [42, 43] [] nullBytes [9, 9]
    { noProps := true } none (by decide) (by decide) (by decide) (by decide) (by decide)
    (by decide) (by decide) (by decide) (by decide) rfl rfl (Or.inl rfl) (Or.inr ⟨rfl, rfl⟩)
    (Or.inr rfl)

end Storobj
